import Mathlib

/-!
Verification of the fixture test DSL compiler (`common/src/fixture-parser.ts`)
of the orgdown-vscode repository.

The TypeScript source is shallowly embedded below.  JavaScript strings are
modelled as Lean `String` (with helpers working on `List Char`); the small
set of regular expressions used by the source is embedded as explicit
character scanners that reproduce the matching behaviour of each concrete
regex (leftmost match, maximal munch where the regex is backtracking-free,
explicit backtracking where it is not).  JavaScript `number` values produced
by `parseInt` are modelled as `Option Int` with `none` playing the role of
`NaN`.  Thrown exceptions are modelled with `Except String`.  The two
iterative scans of the source (`parseFixtureFile`'s line loop and
`parseExpectedBlock`'s directive loop) walk forward through the line array;
they are embedded as suffix-consuming recursions driven by a fuel counter
that starts at the number of lines (each iteration of the JS loops consumes
at least one line, so this fuel is never exhausted; fuel-monotonicity is
proved below where theorems need it).
-/

namespace OrgFix

/-! ## JavaScript string primitives -/

/-- The whitespace class used by JS `trim` / `\s` (ASCII part; the source
only ever compares against ASCII directive keywords). -/
def jsIsWs (c : Char) : Bool :=
  c = ' ' || c = '\t' || c = '\n' || c = '\r' || c = '\x0b' || c = '\x0c'

def jsTrimChars (cs : List Char) : List Char :=
  ((cs.dropWhile jsIsWs).reverse.dropWhile jsIsWs).reverse

/-- JS `String.prototype.trim`. -/
def jsTrim (s : String) : String := ⟨jsTrimChars s.data⟩

/-- ASCII lower-casing of one character (JS `toLowerCase`; the keywords the
source compares against are all ASCII). -/
def jsToLowerChar (c : Char) : Char :=
  if c = 'A' then 'a' else if c = 'B' then 'b' else if c = 'C' then 'c'
  else if c = 'D' then 'd' else if c = 'E' then 'e' else if c = 'F' then 'f'
  else if c = 'G' then 'g' else if c = 'H' then 'h' else if c = 'I' then 'i'
  else if c = 'J' then 'j' else if c = 'K' then 'k' else if c = 'L' then 'l'
  else if c = 'M' then 'm' else if c = 'N' then 'n' else if c = 'O' then 'o'
  else if c = 'P' then 'p' else if c = 'Q' then 'q' else if c = 'R' then 'r'
  else if c = 'S' then 's' else if c = 'T' then 't' else if c = 'U' then 'u'
  else if c = 'V' then 'v' else if c = 'W' then 'w' else if c = 'X' then 'x'
  else if c = 'Y' then 'y' else if c = 'Z' then 'z' else c

/-- JS `String.prototype.toLowerCase`. -/
def jsToLower (s : String) : String := ⟨s.data.map jsToLowerChar⟩

/-- JS `String.prototype.startsWith`. -/
def strStarts (s pre : String) : Bool := pre.data.isPrefixOf s.data

/-- Does `pat` occur as a contiguous subsequence of `cs`?  (JS `includes`.) -/
def containsSeq (pat : List Char) : List Char → Bool
  | [] => pat.isEmpty
  | c :: cs => pat.isPrefixOf (c :: cs) || containsSeq pat cs

/-- JS `String.prototype.includes`. -/
def strIncludes (s pat : String) : Bool := containsSeq pat.data s.data

/-- Split before/after the first occurrence of `pat` (JS `indexOf` + two
`slice`s); `none` when `pat` does not occur. -/
def splitAtSeq (pat : List Char) : List Char → Option (List Char × List Char)
  | [] => if pat.isEmpty then some ([], []) else none
  | c :: cs =>
    if pat.isPrefixOf (c :: cs) then some ([], (c :: cs).drop pat.length)
    else (splitAtSeq pat cs).map (fun p => (c :: p.1, p.2))

/-- JS `String.prototype.split` with a one-character separator. -/
def splitCh (sep : Char) : List Char → List (List Char)
  | [] => [[]]
  | c :: cs =>
    if c = sep then [] :: splitCh sep cs
    else
      match splitCh sep cs with
      | [] => [[c]]
      | g :: gs => (c :: g) :: gs

def natOfDigits (ds : List Char) : Nat :=
  ds.foldl (fun a c => 10 * a + (c.toNat - '0'.toNat)) 0

/-- JS `parseInt(s, 10)`: skip whitespace, optional sign, then a maximal
run of decimal digits; `none` models `NaN` (no digits found). -/
def jsParseIntDec (s : String) : Option Int :=
  let cs := s.data.dropWhile jsIsWs
  let core : List Char → Option Nat := fun l =>
    let ds := l.takeWhile Char.isDigit
    if ds.isEmpty then none else some (natOfDigits ds)
  match cs with
  | '-' :: rest => (core rest).map (fun n => -(n : Int))
  | '+' :: rest => (core rest).map (fun n => (n : Int))
  | _ => (core cs).map (fun n => (n : Int))

/-- One character of `raw.replace(/\t/g, "    ")`. -/
def expandChar (c : Char) : List Char :=
  if c = '\t' then [' ', ' ', ' ', ' '] else [c]

/-- `raw.replace(/\t/g, "    ")`. -/
def expandTabs (s : String) : String :=
  ⟨(s.data.map expandChar).flatten⟩

/-! ## Embedded regular expressions

Each scanner below embeds one concrete regex of the source.  Global
(`/g`) replacement scans are driven by a fuel counter equal to the length
of the scanned character list; every step consumes at least one character,
so the zero-fuel fallback is unreachable from the wrappers. -/

/-- Attempt to parse `sp:` + digits + `>` (the part of `/<sp:(\d+)>/`
after the opening `<`): the count and the remainder after the token. -/
def spTok (cs : List Char) : Option (Nat × List Char) :=
  match cs with
  | 's' :: 'p' :: ':' :: rest =>
    let ds := rest.takeWhile Char.isDigit
    match ds, rest.dropWhile Char.isDigit with
    | _ :: _, '>' :: tail => some (natOfDigits ds, tail)
    | _, _ => none
  | _ => none

/-- One global-replace pass of `/<sp:(\d+)>/g` (digits become that many
spaces). -/
def replaceSpF : Nat → List Char → List Char
  | 0, cs => cs
  | _ + 1, [] => []
  | f + 1, c :: cs =>
    if c = '<' then
      match spTok cs with
      | some (n, tail) => List.replicate n ' ' ++ replaceSpF f tail
      | none => c :: replaceSpF f cs
    else c :: replaceSpF f cs

/-- One global-replace pass of a literal pattern (embeds `/<tab>/g` and
`/<pipe>/g`). -/
def litReplaceF (pat rep : List Char) : Nat → List Char → List Char
  | 0, cs => cs
  | _ + 1, [] => []
  | f + 1, c :: cs =>
    if pat.isPrefixOf (c :: cs) then rep ++ litReplaceF pat rep f ((c :: cs).drop pat.length)
    else c :: litReplaceF pat rep f cs

def replaceSp (s : String) : String := ⟨replaceSpF s.data.length s.data⟩

def replaceTab (s : String) : String :=
  ⟨litReplaceF "<tab>".data "\t".data s.data.length s.data⟩

def replacePipe (s : String) : String :=
  ⟨litReplaceF "<pipe>".data "|".data s.data.length s.data⟩

/-- `processExpectedValue` of the source: the three sequential global
replaces `<sp:N>` → N spaces, then `<tab>` → tab, then `<pipe>` → `|`. -/
def processExpectedValue (value : String) : String :=
  replacePipe (replaceTab (replaceSp value))

/-- `\w` class. -/
def isWordChar (c : Char) : Bool := c.isAlpha || c.isDigit || c = '_'

/-- Global scan of `/:(\w+)\s+([^:]+)/g` (the argument reader's regex):
returns the raw (key, value) matches in order. -/
def argScanF : Nat → List Char → List (String × String)
  | 0, _ => []
  | _ + 1, [] => []
  | f + 1, c :: cs =>
    if c = ':' then
      let w := cs.takeWhile isWordChar
      let r1 := cs.dropWhile isWordChar
      let ws := r1.takeWhile jsIsWs
      let r2 := r1.dropWhile jsIsWs
      let v := r2.takeWhile (fun ch => ch ≠ ':')
      let r3 := r2.dropWhile (fun ch => ch ≠ ':')
      if w.isEmpty || ws.isEmpty || v.isEmpty then argScanF f cs
      else (⟨w⟩, ⟨v⟩) :: argScanF f r3
    else argScanF f cs

/-- `Map.prototype.set`: overwrite the value of an existing key, else
append. -/
def mapSetEntry : List (String × String) → String → String → List (String × String)
  | [], k, v => [(k, v)]
  | (k', v') :: rest, k, v =>
    if k' = k then (k, v) :: rest else (k', v') :: mapSetEntry rest k v

/-- `parseExpectedArgs` of the source. -/
def parseExpectedArgs (line : String) : List (String × String) :=
  (argScanF line.data.length line.data).foldl
    (fun m kv => mapSetEntry m (jsToLower kv.1) (jsTrim kv.2)) []

/-- `Map.prototype.get`. -/
def getArg (m : List (String × String)) (k : String) : Option String :=
  (m.find? (fun p => p.1 == k)).map (·.2)

/-- Global scan of `/\[(\d+)-(\d+)\]/g` (the folding decoder's regex). -/
def foldScanF : Nat → List Char → List (Nat × Nat)
  | 0, _ => []
  | _ + 1, [] => []
  | f + 1, c :: cs =>
    if c = '[' then
      let d1 := cs.takeWhile Char.isDigit
      match d1, cs.dropWhile Char.isDigit with
      | _ :: _, '-' :: r2 =>
        let d2 := r2.takeWhile Char.isDigit
        match d2, r2.dropWhile Char.isDigit with
        | _ :: _, ']' :: tail => (natOfDigits d1, natOfDigits d2) :: foldScanF f tail
        | _, _ => foldScanF f cs
      | _, _ => foldScanF f cs
    else foldScanF f cs

/-- The exported string constants of `common/src/scoping.ts`, used by the
scope decoder to resolve the templates of shape  open-braces scopes.NAME
close-braces  appearing on the right-hand side of a scope assertion. -/
def scopesTable : List (String × String) := [
  ("META_DOCUMENT", "text.org"),
  ("META_HEADER", "meta.file.header.org"),
  ("META_PARAGRAPH", "meta.paragraph.org"),
  ("PARAGRAPH", "markup.paragraph.org"),
  ("META_NODE", "meta.outline-node.org"),
  ("META_NODE_ACTIVE", "meta.outline-node.active.org"),
  ("META_NODE_INACTIVE", "meta.outline-node.inactive.org"),
  ("META_SECTION", "meta.section.org"),
  ("META_DIRECTIVE", "meta.directive.org"),
  ("META_BLOCK", "meta.block.org"),
  ("META_BEGIN_END_BLOCK", "meta.block.begin-end.org"),
  ("META_DRAWER", "meta.block.drawer.org"),
  ("META_OUTLINE_1", "meta.outline.1.org"),
  ("META_OUTLINE_2", "meta.outline.2.org"),
  ("META_OUTLINE_3", "meta.outline.3.org"),
  ("META_OUTLINE_4", "meta.outline.4.org"),
  ("META_OUTLINE_5", "meta.outline.5.org"),
  ("META_OUTLINE_6", "meta.outline.6.org"),
  ("META_OUTLINE_MORE_THAN_6", "meta.outline.more-than-6.org"),
  ("META_OUTLINE_INACTIVE", "comment.outline.org"),
  ("HEADING_BLOCK", "markup.heading.org"),
  ("HEADING_ACTIVE", "markup.heading.active.org"),
  ("HEADING_INACTIVE", "markup.heading.inactive.org"),
  ("HEADING_LEVEL_1", "markup.heading.1.org"),
  ("HEADING_LEVEL_2", "markup.heading.2.org"),
  ("HEADING_LEVEL_3", "markup.heading.3.org"),
  ("HEADING_LEVEL_4", "markup.heading.4.org"),
  ("HEADING_LEVEL_5", "markup.heading.5.org"),
  ("HEADING_LEVEL_6", "markup.heading.6.org"),
  ("HEADING_LEVEL_MORE_THAN_6", "markup.heading.more-than-6.org"),
  ("HEADING_PUNCTUATION", "punctuation.definition.heading.org"),
  ("TODO_KEYWORD", "keyword.other.todo.org"),
  ("PRIORITY_COOKIE", "constant.other.priority.org"),
  ("PRIORITY_VALUE", "constant.other.priority.value.org"),
  ("HEADING_TITLE", "entity.name.section.org"),
  ("PROGRESS_COOKIE", "constant.other.progress.org"),
  ("TAG", "entity.name.tag.org"),
  ("LIST_UNORDERED_TEXT", "markup.list.unnumbered.org"),
  ("LIST_ORDERED_TEXT", "markup.list.numbered.org"),
  ("LIST_BULLET", "punctuation.definition.list.begin.org"),
  ("CHECKBOX", "constant.language.checkbox.org"),
  ("DESCRIPTION_TERM", "entity.name.tag.description.term.org"),
  ("DESCRIPTION_SEPARATOR", "punctuation.separator.key-value.org"),
  ("LIST_COUNTER", "constant.numeric.list.counter.org"),
  ("LIST_COUNTER_VALUE", "constant.numeric.list.counter.value.org"),
  ("HORIZONTAL_RULE", "meta.separator.org"),
  ("PUNCTUATION_WHITESPACE", "punctuation.whitespace.org"),
  ("LEADING_WHITESPACE", "string.other.whitespace.leading.org"),
  ("BLOCK_CONTENT", "markup.block.org"),
  ("BLOCK_KEYWORD", "keyword.control.block.org"),
  ("BLOCK_NAME", "entity.name.function.block.org"),
  ("BLOCK_PARAMETERS", "variable.parameter.block.org"),
  ("BLOCK_PARAMETER_KEY", "keyword.other.property.key.org"),
  ("BLOCK_PARAMETER_VALUE", "string.unquoted.property.value.org"),
  ("BLOCK_STANDARD_META", "meta.block.begin-end.standard.org"),
  ("BLOCK_STANDARD_CONTENT", "markup.block.standard.org"),
  ("BLOCK_SRC_META", "meta.block.begin-end.src.org"),
  ("BLOCK_SRC_CONTENT", "markup.block.src.org"),
  ("BLOCK_LANGUAGE", "entity.name.type.language.org"),
  ("BLOCK_SWITCH", "storage.modifier.switch.org"),
  ("DYNAMIC_BLOCK_META", "meta.block.begin-end.dynamic.org"),
  ("DYNAMIC_BLOCK_CONTENT", "markup.block.dynamic.org"),
  ("BLOCK_CUSTOMIZED_META", "meta.block.begin-end.customized.org"),
  ("BLOCK_CUSTOMIZED_CONTENT", "markup.block.customized.org"),
  ("KEYWORD", "meta.directive.keyword.org"),
  ("KEYWORD_KEY", "keyword.other.org"),
  ("KEYWORD_NAME", "entity.name.function.org"),
  ("KEYWORD_VALUE", "string.unquoted.org"),
  ("LINK_ABBREVIATION_META", "meta.directive.link-abbreviation.org"),
  ("LINK_ABBREVIATION_KEYWORD", "keyword.other.link.abbreviation.org"),
  ("LINK_ABBREVIATION_KEY", "variable.parameter.link.abbreviation.org"),
  ("LINK_ABBREVIATION_URL", "string.unquoted.link.abbreviation.url.org"),
  ("PLANNING_LINE_META", "meta.directive.planning.org"),
  ("PLANNING_KEYWORD", "keyword.control.task-management.org"),
  ("PLANNING_TIMESTAMP", "constant.other.timestamp.planning.org"),
  ("INCLUDE_KEYWORD", "keyword.other.include.org"),
  ("INCLUDE_PATH", "string.quoted.include.path.org"),
  ("INCLUDE_OPTIONS", "meta.directive.include.options.org"),
  ("DRAWER_BEGIN_KEYWORD", "keyword.control.block.drawer.begin.org"),
  ("DRAWER_END_KEYWORD", "keyword.control.block.drawer.end.org"),
  ("DRAWER_NAME", "entity.name.function.drawer.org"),
  ("DRAWER_CONTENT", "markup.block.drawer.content.org"),
  ("PROPERTY_DRAWER_META", "meta.block.drawer.property.org"),
  ("PROPERTY_DRAWER_BEGIN_KEYWORD", "punctuation.definition.property-drawer.begin.org"),
  ("PROPERTY_DRAWER_END_KEYWORD", "punctuation.definition.property-drawer.end.org"),
  ("PROPERTY_META", "meta.property.org"),
  ("PROPERTY_KEY", "entity.name.property.org"),
  ("PROPERTY_VALUE", "variable.other.property.value.org"),
  ("TIMESTAMP_ACTIVE", "constant.other.timestamp.active.org"),
  ("TIMESTAMP_INACTIVE", "constant.other.timestamp.inactive.org"),
  ("TIMESTAMP_ACTIVE_RANGE", "constant.other.timestamp.active.range.org"),
  ("TIMESTAMP_INACTIVE_RANGE", "constant.other.timestamp.inactive.range.org"),
  ("META_INLINE_MACRO", "meta.inline.macro.org"),
  ("MACRO", "variable.other.macro.org"),
  ("MACRO_PUNCTUATION", "punctuation.definition.macro.org"),
  ("MACRO_NAME", "entity.name.function.macro.org"),
  ("MACRO_PARAMETER", "variable.parameter.macro.org"),
  ("BOLD", "markup.bold.org"),
  ("ITALIC", "markup.italic.org"),
  ("UNDERLINE", "markup.underline.org"),
  ("STRIKE_THROUGH", "markup.strikethrough.org"),
  ("CODE", "markup.inline.raw.org"),
  ("VERBATIM", "markup.inline.raw.org"),
  ("LINK", "markup.underline.link.org"),
  ("LATEX", "markup.math.org"),
  ("ENTITY", "constant.character.entity.org"),
  ("SUB_SUPER_SCRIPT", "markup.other.sub-super-script.org"),
  ("BOLD_PUNCTUATION", "punctuation.definition.bold.org"),
  ("ITALIC_PUNCTUATION", "punctuation.definition.italic.org"),
  ("UNDERLINE_PUNCTUATION", "punctuation.definition.underline.org"),
  ("STRIKE_THROUGH_PUNCTUATION", "punctuation.definition.strikethrough.org"),
  ("CODE_PUNCTUATION", "punctuation.definition.raw.code.org"),
  ("VERBATIM_PUNCTUATION", "punctuation.definition.raw.verbatim.org"),
  ("META_INLINE_BOLD", "meta.inline.bold.org"),
  ("META_INLINE_ITALIC", "meta.inline.italic.org"),
  ("META_INLINE_UNDERLINE", "meta.inline.underline.org"),
  ("META_INLINE_STRIKE_THROUGH", "meta.inline.strikethrough.org"),
  ("META_INLINE_CODE", "meta.inline.code.org"),
  ("META_INLINE_VERBATIM", "meta.inline.verbatim.org"),
  ("LINK_META", "meta.link.org"),
  ("LINK_BEGIN_PUNCTUATION", "punctuation.definition.link.begin.org"),
  ("LINK_END_PUNCTUATION", "punctuation.definition.link.end.org"),
  ("LINK_SEPARATOR_PUNCTUATION", "punctuation.separator.link.org"),
  ("LINK_DESCRIPTION", "string.other.link.description.org"),
  ("LINK_PLAIN", "markup.underline.link.plain.org"),
  ("LINK_ANGLE", "markup.underline.link.angle.org"),
  ("LINK_PROTOCOL", "keyword.other.link.protocol.org"),
  ("FOOTNOTE_REFERENCE", "markup.footnote.reference.org"),
  ("FOOTNOTE_PUNCTUATION", "punctuation.definition.footnote.org"),
  ("FOOTNOTE_LABEL", "constant.other.footnote.label.org"),
  ("FOOTNOTE_DEFINITION", "meta.footnote.definition.org"),
  ("FOOTNOTE_CONTENT", "markup.footnote.content.org"),
  ("META_TABLE", "meta.block.table.org"),
  ("TABLE_META", "meta.block.begin-end.table.org"),
  ("TABLE_CONTENT", "markup.block.table.org"),
  ("TABLE_ROW", "markup.block.table.row.org"),
  ("TABLE_CELL", "markup.table.cell.org"),
  ("TABLE_CELL_PUNCTUATION", "punctuation.separator.table.cell.org"),
  ("TABLE_ROW_SEPARATOR", "punctuation.definition.table.row-separator.org"),
  ("TABLE_CAPTION_META", "meta.directive.table.caption.org"),
  ("TABLE_ATTR_META", "meta.directive.table.attr.org"),
  ("TABLE_FORMULA", "meta.directive.table.formula.org"),
  ("COMMENT_LINE", "comment.line.number-sign.org"),
  ("COMMENT_BLOCK", "comment.block.org meta.block.begin-end.org meta.block.begin-end.standard.org"),
  ("COMMENT_BLOCK_CONTENT", "comment.block.content.org")
]

/-- Global replace of the scope-template regex (open-braces, `\s*`,
`scopes.`, a `[A-Za-z0-9_]+` key, `\s*`, close-braces): a bound key is
replaced by its `scopesTable` string, an unbound key leaves the whole
matched text verbatim; scanning continues after the match either way. -/
def tmplScanF : Nat → List Char → List Char
  | 0, cs => cs
  | _ + 1, [] => []
  | f + 1, c :: cs =>
    if c = '{' then
      match cs with
      | '{' :: r0 =>
        let r1 := r0.dropWhile jsIsWs
        if "scopes.".data.isPrefixOf r1 then
          let r2 := r1.drop 7
          let key := r2.takeWhile isWordChar
          match key, (r2.dropWhile isWordChar).dropWhile jsIsWs with
          | _ :: _, '}' :: '}' :: tail =>
            (match scopesTable.find? (fun p => p.1 == String.mk key) with
             | some kv => kv.2.data ++ tmplScanF f tail
             | none => (c :: cs).take ((c :: cs).length - tail.length) ++ tmplScanF f tail)
          | _, _ => c :: tmplScanF f cs
        else c :: tmplScanF f cs
      | _ => c :: tmplScanF f cs
    else c :: tmplScanF f cs

def resolveScopeTemplates (s : String) : String := ⟨tmplScanF s.data.length s.data⟩

/-! ## The symbol-line regex

`/^\s*-\s*(.+?)\s+\((\d+):(\d+)-(\d+):(\d+)\)/` needs real backtracking:
the second `\s*` is greedy (tried longest first) and the name `(.+?)` is
lazy (tried shortest first); `\s+` and the digit runs are forced to
maximal munch by the characters that follow them. -/

/-- Parse `\s+\((\d+):(\d+)-(\d+):(\d+)\)` at the head of `cs`. -/
def parseSymTail (cs : List Char) : Option (Nat × Nat × Nat × Nat) :=
  let ws := cs.takeWhile jsIsWs
  if ws.isEmpty then none
  else
    match cs.dropWhile jsIsWs with
    | '(' :: r1 =>
      let d1 := r1.takeWhile Char.isDigit
      match d1, r1.dropWhile Char.isDigit with
      | _ :: _, ':' :: r2 =>
        let d2 := r2.takeWhile Char.isDigit
        match d2, r2.dropWhile Char.isDigit with
        | _ :: _, '-' :: r3 =>
          let d3 := r3.takeWhile Char.isDigit
          match d3, r3.dropWhile Char.isDigit with
          | _ :: _, ':' :: r4 =>
            let d4 := r4.takeWhile Char.isDigit
            match d4, r4.dropWhile Char.isDigit with
            | _ :: _, ')' :: _ =>
              some (natOfDigits d1, natOfDigits d2, natOfDigits d3, natOfDigits d4)
            | _, _ => none
          | _, _ => none
        | _, _ => none
      | _, _ => none
    | _ => none

/-- Lazy `(.+?)`: grow the name one character at a time until
`parseSymTail` succeeds on the remainder. -/
def trySymName (acc : List Char) : List Char → Option (List Char × (Nat × Nat × Nat × Nat))
  | [] => none
  | c :: rs =>
    match parseSymTail (c :: rs) with
    | some nums => some (acc.reverse, nums)
    | none => trySymName (c :: acc) rs

/-- Greedy-first backtracking over how many characters the second `\s*`
consumes: try `drop t`, `drop (t-1)`, …, `drop 0` of the text after the
bullet dash. -/
def symTryDepths : Nat → List Char → Option (List Char × (Nat × Nat × Nat × Nat))
  | 0, full =>
    (match full with
     | [] => none
     | c :: rs => trySymName [c] rs)
  | t + 1, full =>
    (match full.drop (t + 1) with
     | [] => none
     | c :: rs => trySymName [c] rs) <|> symTryDepths t full

/-- Match the symbol-line regex against a whole line; yields the trimmed
name (`match[1].trim()`) and the four numbers. -/
def trySymbolLine (line : String) : Option (String × Nat × Nat × Nat × Nat) :=
  match line.data.dropWhile jsIsWs with
  | '-' :: r1 =>
    (symTryDepths (r1.takeWhile jsIsWs).length r1).map
      (fun p => (jsTrim ⟨p.1⟩, p.2))
  | _ => none

/-! ## Data model -/

/-- `{index, value}` of a regex capture row; `index` is the `parseInt` of
the second table cell (`none` = JS `NaN`). -/
structure Capture where
  index : Option Int
  value : String
deriving DecidableEq, Repr

/-- The `{text, mustContain, mustNotContain}` record of a scope assertion
(also the payload of a `ScopeNode`). -/
structure ScopeAssertion where
  text : String
  mustContain : List String
  mustNotContain : List String
deriving DecidableEq, Repr

/-- The per-line data of a `SymbolNode`. -/
structure SymInfo where
  name : String
  startLine : Nat
  startChar : Nat
  endLine : Nat
  endChar : Nat
deriving DecidableEq, Repr

/-- The common shape of `ScopeNode` and `SymbolNode`: a payload plus an
ordered list of children. -/
inductive PTree (α : Type) where
  | node (val : α) (children : List (PTree α))
deriving Repr

abbrev ScopeNode := PTree ScopeAssertion
abbrev SymbolNode := PTree SymInfo

def PTree.val : PTree α → α
  | .node a _ => a

def PTree.children : PTree α → List (PTree α)
  | .node _ cs => cs

/-- The tagged union `Expectation` of the source. -/
inductive Expectation where
  | regex (name : String) (shouldMatch : Bool) (captures : Option (List Capture))
  | scope (assertions : List ScopeAssertion) (tree : List ScopeNode)
  | folding (ranges : List (Nat × Nat))
  | symbols (syms : List SymbolNode)
deriving Repr

structure FixtureTestCase where
  name : String
  input : String
  expectations : List Expectation
deriving Repr

/-! ## The depth-stack tree builder

Both indentation-tree decoders run the same algorithm (duplicated inline
in the source): keep a stack of `{depth, node}`; for each new line pop
every entry whose depth is `≥` the new depth, attach the new node to the
resulting top (or to the root list when the stack empties), push it.  The
source mutates `children` arrays in place; the pure embedding instead
carries each entry's children-so-far on the stack and performs the
attachment when an entry is popped (at which point its children are
complete) — attaching it to the entry directly below, which is exactly
the node it was attached to at push time in the source, or to the root
list when there is no entry below. -/

/-- Pop every stack entry with depth `≥ d`, threading the finished node of
each popped entry (`pend`) into the children of the entry below it, or
into the root list. -/
def popCarry (d : Nat) :
    List (Nat × α × List (PTree α)) → Option (PTree α) → List (PTree α) →
    List (Nat × α × List (PTree α)) × List (PTree α)
  | [], none, roots => ([], roots)
  | [], some t, roots => ([], roots ++ [t])
  | (d', a', cs') :: rest, pend, roots =>
    let cs := match pend with | none => cs' | some t => cs' ++ [t]
    if d ≤ d' then popCarry d rest (some (.node a' cs)) roots
    else ((d', a', cs) :: rest, roots)

/-- Process one `(depth, payload)` line: pop, then push the new entry. -/
def insertItem (st : List (Nat × α × List (PTree α)) × List (PTree α)) (x : Nat × α) :
    List (Nat × α × List (PTree α)) × List (PTree α) :=
  let (s, r) := popCarry x.1 st.1 none st.2
  ((x.1, x.2, []) :: s, r)

/-- The forest built by the source's depth-stack loop from the qualifying
`(depth, payload)` lines, in order. -/
def buildFromItems (items : List (Nat × α)) : List (PTree α) :=
  let (s, r) := items.foldl insertItem ([], [])
  (popCarry 0 s none r).2

/-! ## Sub-grammar decoders -/

/-- One row of a regex capture table (the body of the source's
`tableLines.map`): at least three cells after splitting on the bar and
trimming, and a second cell that is neither the literal header label
`Group #` nor contains `---`. -/
def captureRow (line : String) : Option Capture :=
  match (splitCh '|' line.data).map (fun g => jsTrim ⟨g⟩) with
  | _ :: p1 :: p2 :: _ =>
    if p1 ≠ "Group #" ∧ ¬ strIncludes p1 "---" then
      some ⟨jsParseIntDec p1, processExpectedValue p2⟩
    else none
  | _ => none

/-- The first loop of the regex branch: sticky `shouldMatch := false` on a
`no-match` line, collect trimmed lines starting with the bar. -/
def regexScanStep (p : Bool × List String) (line : String) : Bool × List String :=
  if jsToLower (jsTrim line) == "no-match" then (false, p.2)
  else if strStarts (jsTrim line) "|" then (p.1, p.2 ++ [jsTrim line])
  else p

/-- The regex branch of `parseExpectedBlock`. -/
def decodeRegex (expectedLine : String) (args : List (String × String))
    (content : List String) : Except String Expectation :=
  match getArg args "name" with
  | none =>
    .error ("Regex test case is missing a :name argument in line: " ++ expectedLine)
  | some regexName =>
    let st := content.foldl regexScanStep (true, [])
    let captures := st.2.filterMap captureRow
    .ok (.regex regexName st.1 (if st.1 then some captures else none))

/-- `line.replace(/^\s*-\s*/, "")`. -/
def stripBullet (s : String) : String :=
  let cs := s.data
  let ws := cs.takeWhile jsIsWs
  match cs.drop ws.length with
  | '-' :: rest => ⟨rest.dropWhile jsIsWs⟩
  | _ => s

/-- Strip one pair of matching wrapping quotes (`"` or `'`). -/
def stripQuotes (t : String) : String :=
  match t.data with
  | [] => t
  | c :: _ =>
    if (c = '"' ∧ t.data.getLast? = some '"') ∨
       (c = '\'' ∧ t.data.getLast? = some '\'') then
      ⟨(t.data.drop 1).dropLast⟩
    else t

/-- The `for (const scope of rawScopes)` loop: every token starting with
`!` goes to `mustNotContain` with the `!` stripped, all others to
`mustContain`, in order. -/
def scopeTokensRoute (toks : List String) : List String × List String :=
  toks.foldl
    (fun (p : List String × List String) sc =>
      if strStarts sc "!" then (p.1, p.2 ++ [⟨sc.data.drop 1⟩])
      else (p.1 ++ [sc], p.2))
    ([], [])

/-- The comma-split, trimmed, nonempty scope tokens of the right-hand side
of an assertion (after template resolution). -/
def scopeTokensOf (right : String) : List String :=
  ((splitCh ',' right.data).map (fun g => jsTrim ⟨g⟩)).filter (fun s => !(s == ""))

/-- One line of a scope block: `none` when the line is skipped (blank,
comment, no separator, or no scopes after filtering), otherwise the
`(depth, assertion)` pair the source pushes. -/
def scopeLineItem (raw : String) : Option (Nat × ScopeAssertion) :=
  let normalized := expandTabs raw
  if jsTrim normalized == "" || strStarts (jsTrim normalized) "#" then none
  else
    let depth := (normalized.data.takeWhile jsIsWs).length
    let line := stripBullet normalized
    match splitAtSeq "=>".data line.data with
    | none => none
    | some (leftCs, rightCs) =>
      let left := jsTrim ⟨leftCs⟩
      let text := processExpectedValue (stripQuotes (jsTrim left))
      let right := resolveScopeTemplates (jsTrim ⟨rightCs⟩)
      let mm := scopeTokensRoute (scopeTokensOf right)
      if mm.1.isEmpty && mm.2.isEmpty then none
      else some (depth, ⟨text, mm.1, mm.2⟩)

/-- One iteration of the scope branch's loop: a qualifying line appends
its assertion and inserts its node into the depth stack. -/
def scopeStep
    (st : List ScopeAssertion ×
          (List (Nat × ScopeAssertion × List ScopeNode) × List ScopeNode))
    (raw : String) :
    List ScopeAssertion ×
    (List (Nat × ScopeAssertion × List ScopeNode) × List ScopeNode) :=
  match scopeLineItem raw with
  | none => st
  | some (d, p) => (st.1 ++ [p], insertItem st.2 (d, p))

/-- The scope branch of `parseExpectedBlock`. -/
def decodeScope (content : List String) : Except String Expectation :=
  let st := content.foldl scopeStep ([], ([], []))
  let tree := (popCarry 0 st.2.1 none st.2.2).2
  let hasMeaningful :=
    content.any (fun l => !(jsTrim l == "") && !(strStarts (jsTrim l) "#"))
  if st.1.isEmpty && hasMeaningful then
    .error "Scope expectation block must contain lines in the format: text => scope"
  else .ok (.scope st.1 tree)

/-- The folding branch of `parseExpectedBlock`. -/
def decodeFolding (content : List String) : Expectation :=
  let joined := jsTrim (String.intercalate " " content)
  .folding (foldScanF joined.data.length joined.data)

/-- One line of a symbols block: `none` when skipped (blank, comment, or
non-matching shape), otherwise the `(depth, info)` pair. -/
def symLineItem (raw : String) : Option (Nat × SymInfo) :=
  let normalized := expandTabs raw
  if jsTrim normalized == "" || strStarts (jsTrim normalized) "#" then none
  else
    let depth := (normalized.data.takeWhile jsIsWs).length
    (trySymbolLine normalized).map
      (fun p => (depth, ⟨p.1, p.2.1, p.2.2.1, p.2.2.2.1, p.2.2.2.2⟩))

/-- One iteration of the symbols branch's loop. -/
def symStep (st : List (Nat × SymInfo × List SymbolNode) × List SymbolNode)
    (raw : String) : List (Nat × SymInfo × List SymbolNode) × List SymbolNode :=
  match symLineItem raw with
  | none => st
  | some x => insertItem st x

/-- The symbols branch of `parseExpectedBlock`. -/
def decodeSymbols (content : List String) : Expectation :=
  let st := content.foldl symStep ([], [])
  .symbols (popCarry 0 st.1 none st.2).2

/-! ## Block extent and the expectation-run loop -/

/-- `/^\*+\s/.test(line)`: one or more stars then a whitespace character. -/
def headlineShaped (t : String) : Bool :=
  let stars := t.data.takeWhile (fun c => c = '*')
  !stars.isEmpty &&
    (match t.data.drop stars.length with
     | c :: _ => jsIsWs c
     | [] => false)

/-- The terminator test of `parseExpectedBlock`'s extent loop, applied to
the trimmed line.  Note the directive comparisons here are case-sensitive
`startsWith` checks against the upper-case keywords, unlike the scans of
`parseFixtureFile`. -/
def isBlockTerm (t : String) : Bool :=
  strStarts t "#+NAME:" || strStarts t "#+BEGIN_FIXTURE" || strStarts t "#+EXPECTED:" ||
    (headlineShaped t && !(strIncludes t "=>"))

/-- The extent loop: split the lines after an `#+EXPECTED:` directive into
the block's content and the remainder beginning at the terminator. -/
def blockExtent : List String → List String × List String
  | [] => ([], [])
  | l :: ls =>
    if isBlockTerm (jsTrim l) then ([], l :: ls)
    else
      let p := blockExtent ls
      (l :: p.1, p.2)

/-- The `trim().toLowerCase().startsWith` scans of the source. -/
def isNameScan (l : String) : Bool := strStarts (jsToLower (jsTrim l)) "#+name:"

def isBeginScan (l : String) : Bool := strStarts (jsToLower (jsTrim l)) "#+begin_fixture"

def isEndScan (l : String) : Bool := strStarts (jsToLower (jsTrim l)) "#+end_fixture"

def isExpectedScan (l : String) : Bool := strStarts (jsToLower (jsTrim l)) "#+expected:"

/-- The `if/else if` dispatch on the `:type` argument inside
`parseExpectedBlock`'s loop; an unrecognized or absent type appends
nothing. -/
def decodeOne (expectedLine : String) (content : List String) :
    Except String (List Expectation) :=
  let args := parseExpectedArgs expectedLine
  match getArg args "type" with
  | some t =>
    if t == "regex" then (decodeRegex expectedLine args content).map (fun e => [e])
    else if t == "scope" then (decodeScope content).map (fun e => [e])
    else if t == "folding" then .ok [decodeFolding content]
    else if t == "symbols" then .ok [decodeSymbols content]
    else .ok []
  | none => .ok []

def dropBlankLines (ls : List String) : List String :=
  ls.dropWhile (fun l => jsTrim l == "")

/-- The `while` loop of `parseExpectedBlock` in suffix-consuming form: it
returns the collected expectations and the remaining lines at which the
caller resumes (`endIndex + 1` of the source). -/
def expLoop : Nat → List String → Except String (List Expectation × List String)
  | 0, ls => .ok ([], ls)
  | _ + 1, [] => .ok ([], [])
  | f + 1, l :: ls =>
    if isExpectedScan l then
      let p := blockExtent ls
      match decodeOne l p.1 with
      | .error e => .error e
      | .ok es =>
        match expLoop f (dropBlankLines p.2) with
        | .error e => .error e
        | .ok (more, fin) => .ok (es ++ more, fin)
    else .ok ([], l :: ls)

/-! ## The fixture file compiler -/

/-- Find the first `#+end_fixture` line: the interior lines before it and
the lines after it. -/
def findEnd : List String → Option (List String × List String)
  | [] => none
  | l :: ls =>
    if isEndScan l then some ([], ls)
    else (findEnd ls).map (fun p => (l :: p.1, p.2))

/-- `line.match(/^(\s*),(.*)/)` escape-unescaping: drop one comma sitting
right after the leading whitespace. -/
def stripEscapeComma (line : String) : String :=
  let cs := line.data
  let ws := cs.takeWhile jsIsWs
  match cs.drop ws.length with
  | ',' :: rest => ⟨ws ++ rest⟩
  | _ => line

/-- `line.replace(/^\s*#\+name:/i, "").trim()`. -/
def stripNameDirective (line : String) : String :=
  let cs := line.data
  let r := cs.dropWhile jsIsWs
  if jsToLower ⟨r.take 7⟩ == "#+name:" then jsTrim ⟨r.drop 7⟩ else jsTrim line

/-- The forward scan of `parseFixtureFile` in suffix-consuming form. -/
def parseFixtureLoop : Nat → List String → Except String (List FixtureTestCase)
  | 0, _ => .ok []
  | _ + 1, [] => .ok []
  | f + 1, l :: ls =>
    if !isNameScan l then parseFixtureLoop f ls
    else
      match ls with
      | [] => .ok []
      | b :: bs =>
        if !isBeginScan b then parseFixtureLoop f ls
        else
          match findEnd bs with
          | none => parseFixtureLoop f ls
          | some (fx, after) =>
            let input := String.intercalate "\n" (fx.map stripEscapeComma)
            let la := dropBlankLines after
            match la with
            | [] => parseFixtureLoop f after
            | lh :: _ =>
              if isExpectedScan lh then
                match expLoop la.length la with
                | .error e => .error e
                | .ok (exps, fin) =>
                  match parseFixtureLoop f fin with
                  | .error e => .error e
                  | .ok rest =>
                    .ok (⟨stripNameDirective l, input, exps⟩ :: rest)
              else parseFixtureLoop f after

def parseFixtureFileLines (lines : List String) : Except String (List FixtureTestCase) :=
  parseFixtureLoop lines.length lines

/-- `parseFixtureFile` of the source: split on newlines and scan. -/
def parseFixtureFile (content : String) : Except String (List FixtureTestCase) :=
  parseFixtureFileLines ((splitCh '\n' content.data).map (fun cs => (⟨cs⟩ : String)))

/-! ## General lemmas -/

theorem jsIsWs_jsToLowerChar (c : Char) : jsIsWs (jsToLowerChar c) = jsIsWs c := by
  by_cases h1 : c = 'A'
  · subst h1; decide
  by_cases h2 : c = 'B'
  · subst h2; decide
  by_cases h3 : c = 'C'
  · subst h3; decide
  by_cases h4 : c = 'D'
  · subst h4; decide
  by_cases h5 : c = 'E'
  · subst h5; decide
  by_cases h6 : c = 'F'
  · subst h6; decide
  by_cases h7 : c = 'G'
  · subst h7; decide
  by_cases h8 : c = 'H'
  · subst h8; decide
  by_cases h9 : c = 'I'
  · subst h9; decide
  by_cases h10 : c = 'J'
  · subst h10; decide
  by_cases h11 : c = 'K'
  · subst h11; decide
  by_cases h12 : c = 'L'
  · subst h12; decide
  by_cases h13 : c = 'M'
  · subst h13; decide
  by_cases h14 : c = 'N'
  · subst h14; decide
  by_cases h15 : c = 'O'
  · subst h15; decide
  by_cases h16 : c = 'P'
  · subst h16; decide
  by_cases h17 : c = 'Q'
  · subst h17; decide
  by_cases h18 : c = 'R'
  · subst h18; decide
  by_cases h19 : c = 'S'
  · subst h19; decide
  by_cases h20 : c = 'T'
  · subst h20; decide
  by_cases h21 : c = 'U'
  · subst h21; decide
  by_cases h22 : c = 'V'
  · subst h22; decide
  by_cases h23 : c = 'W'
  · subst h23; decide
  by_cases h24 : c = 'X'
  · subst h24; decide
  by_cases h25 : c = 'Y'
  · subst h25; decide
  by_cases h26 : c = 'Z'
  · subst h26; decide
  have he : jsToLowerChar c = c := by
    simp only [jsToLowerChar]
    rw [if_neg h1, if_neg h2, if_neg h3, if_neg h4, if_neg h5, if_neg h6, if_neg h7,
      if_neg h8, if_neg h9, if_neg h10, if_neg h11, if_neg h12, if_neg h13, if_neg h14,
      if_neg h15, if_neg h16, if_neg h17, if_neg h18, if_neg h19, if_neg h20, if_neg h21,
      if_neg h22, if_neg h23, if_neg h24, if_neg h25, if_neg h26]
  rw [he]

theorem jsTrimChars_map_toLower (cs : List Char) :
    jsTrimChars (cs.map jsToLowerChar) = (jsTrimChars cs).map jsToLowerChar := by
  have hp : jsIsWs ∘ jsToLowerChar = jsIsWs := funext jsIsWs_jsToLowerChar
  simp only [jsTrimChars, ← List.map_reverse, List.dropWhile_map, hp]

theorem jsToLower_jsTrim (s : String) :
    jsToLower (jsTrim s) = jsTrim (jsToLower s) := by
  simp [jsToLower, jsTrim, jsTrimChars_map_toLower]

theorem blockExtent_eq_split (ls : List String) :
    blockExtent ls =
      (ls.takeWhile (fun l => !isBlockTerm (jsTrim l)),
       ls.dropWhile (fun l => !isBlockTerm (jsTrim l))) := by
  induction ls with
  | nil => rfl
  | cons l ls ih =>
    by_cases h : isBlockTerm (jsTrim l) = true
    · simp [blockExtent, h, List.takeWhile_cons, List.dropWhile_cons]
    · simp only [Bool.not_eq_true] at h
      simp [blockExtent, h, List.takeWhile_cons, List.dropWhile_cons, ih]

/-! ## Claim C3 -/

/-- C3: the content of an expectation block extends from the line after the
`#+EXPECTED:` directive up to but not including the first terminator line —
a `#+NAME:`, `#+BEGIN_FIXTURE` or `#+EXPECTED:` directive or a
headline-shaped line (stars then whitespace) that does not contain `=>`;
a headline-shaped line containing `=>` is kept as content; with no
terminator the block extends to the last line of the file. -/
theorem C3_block_extent :
    (∀ ls : List String,
      blockExtent ls =
        (ls.takeWhile (fun l => !isBlockTerm (jsTrim l)),
         ls.dropWhile (fun l => !isBlockTerm (jsTrim l))))
    ∧ (∀ t : String,
        isBlockTerm t =
          (strStarts t "#+NAME:" || strStarts t "#+BEGIN_FIXTURE" ||
           strStarts t "#+EXPECTED:" || (headlineShaped t && !(strIncludes t "=>"))))
    ∧ (∀ ls : List String, (∀ l ∈ ls, isBlockTerm (jsTrim l) = false) →
        blockExtent ls = (ls, []))
    ∧ isBlockTerm (jsTrim "* head => scope.x") = false
    ∧ isBlockTerm (jsTrim "* head") = true
    ∧ blockExtent ["* head => scope.x", "* head", "z"] =
        (["* head => scope.x"], ["* head", "z"]) := by
  refine ⟨blockExtent_eq_split, fun t => rfl, ?_, by decide, by decide, by decide⟩
  intro ls h
  rw [blockExtent_eq_split]
  simp only [Prod.mk.injEq]
  constructor
  · apply List.takeWhile_eq_self_iff.2
    intro x hx
    simp [h x hx]
  · apply List.dropWhile_eq_nil_iff.2
    intro x hx
    simp [h x hx]

/-- Witness for the hypothesis-bearing conjunct of `C3_block_extent`. -/
theorem C3_block_extent_witness :
    (∀ l ∈ ["alpha", "beta"], isBlockTerm (jsTrim l) = false) ∧
      blockExtent ["alpha", "beta"] = (["alpha", "beta"], []) :=
  ⟨by decide, C3_block_extent.2.2.1 ["alpha", "beta"] (by decide)⟩

/-! ## Claim C4 -/

/-- C4 fails: the scans of `parseFixtureFile` are case-insensitive, but the
Block Extent Finder's terminator test is case-sensitive — a lower-case
`#+name:` line does not terminate a block while the upper-case spelling
does. -/
theorem C4_counterexample :
    blockExtent ["x", "#+name: y"] = (["x", "#+name: y"], []) ∧
      blockExtent ["x", "#+NAME: y"] = (["x"], ["#+NAME: y"]) := by
  decide

/-- C4 (amended): directive matching is case-insensitive in all the scans
of the Fixture File Compiler (`#+name:` / `#+begin_fixture` /
`#+end_fixture` / `#+expected:`) — any two spellings with the same
lower-casing are treated identically — but the Block Extent Finder's
terminator test recognizes only the exact upper-case spellings `#+NAME:`,
`#+BEGIN_FIXTURE`, `#+EXPECTED:`. -/
theorem C4_case_sensitivity :
    (∀ s t : String, jsToLower s = jsToLower t →
      isNameScan s = isNameScan t ∧ isBeginScan s = isBeginScan t ∧
      isEndScan s = isEndScan t ∧ isExpectedScan s = isExpectedScan t)
    ∧ isNameScan "#+NaMe: x" = true
    ∧ isBeginScan "#+Begin_Fixture" = true
    ∧ isEndScan "#+END_fixture" = true
    ∧ isExpectedScan "#+ExPeCtEd: :type scope" = true
    ∧ isBlockTerm "#+NAME: x" = true ∧ isBlockTerm "#+name: x" = false
    ∧ isBlockTerm "#+BEGIN_FIXTURE" = true ∧ isBlockTerm "#+begin_fixture" = false
    ∧ isBlockTerm "#+EXPECTED: y" = true ∧ isBlockTerm "#+expected: y" = false := by
  refine ⟨?_, by decide, by decide, by decide, by decide, by decide, by decide,
    by decide, by decide, by decide, by decide⟩
  intro s t h
  refine ⟨?_, ?_, ?_, ?_⟩ <;>
    simp only [isNameScan, isBeginScan, isEndScan, isExpectedScan,
      jsToLower_jsTrim, h]

/-- Witness for the hypothesis-bearing conjunct of `C4_case_sensitivity`. -/
theorem C4_case_sensitivity_witness :
    jsToLower "#+NaMe: x" = jsToLower "#+name: X" ∧
      isNameScan "#+NaMe: x" = isNameScan "#+name: X" :=
  ⟨by decide, (C4_case_sensitivity.1 "#+NaMe: x" "#+name: X" (by decide)).1⟩

/-! ## Blank/comment lines and tab expansion -/

/-- The qualifying `(depth, assertion)` lines of a scope block. -/
def scopeItemsOf (content : List String) : List (Nat × ScopeAssertion) :=
  content.filterMap scopeLineItem

/-- The qualifying `(depth, info)` lines of a symbols block. -/
def symItemsOf (content : List String) : List (Nat × SymInfo) :=
  content.filterMap symLineItem

theorem scopeStep_foldl (content : List String) (a : List ScopeAssertion)
    (st : List (Nat × ScopeAssertion × List ScopeNode) × List ScopeNode) :
    content.foldl scopeStep (a, st) =
      (a ++ (scopeItemsOf content).map (·.2),
       (scopeItemsOf content).foldl insertItem st) := by
  induction content generalizing a st with
  | nil => simp [scopeItemsOf]
  | cons l ls ih =>
    simp only [scopeItemsOf, List.foldl_cons, List.filterMap_cons]
    cases h : scopeLineItem l with
    | none => simpa [scopeStep, h, scopeItemsOf] using ih a st
    | some x =>
      simp only [scopeStep, h, List.foldl_cons]
      rw [ih]
      simp [scopeItemsOf]

theorem symStep_foldl (content : List String)
    (st : List (Nat × SymInfo × List SymbolNode) × List SymbolNode) :
    content.foldl symStep st = (symItemsOf content).foldl insertItem st := by
  induction content generalizing st with
  | nil => simp [symItemsOf]
  | cons l ls ih =>
    simp only [symItemsOf, List.foldl_cons, List.filterMap_cons]
    cases h : symLineItem l with
    | none => simpa [symStep, h, symItemsOf] using ih st
    | some x =>
      simp only [symStep, h, List.foldl_cons]
      rw [ih]
      simp [symItemsOf]

theorem expandChar_ws {c : Char} (h : jsIsWs c = true) :
    ∀ x ∈ expandChar c, jsIsWs x = true := by
  intro x hx
  by_cases ht : c = '\t'
  · simp [expandChar, ht] at hx
    simp [hx, jsIsWs]
  · simp [expandChar, ht] at hx
    simpa [hx] using h

theorem expandChar_not_ws {c : Char} (h : jsIsWs c = false) :
    expandChar c = [c] := by
  have ht : c ≠ '\t' := by rintro rfl; simp [jsIsWs] at h
  simp [expandChar, ht]

theorem dropWhile_ws_append_of_all {xs ys : List Char}
    (h : ∀ x ∈ xs, jsIsWs x = true) :
    (xs ++ ys).dropWhile jsIsWs = ys.dropWhile jsIsWs := by
  induction xs with
  | nil => simp
  | cons x xs ih =>
    simp only [List.cons_append, List.dropWhile_cons, h x (by simp)]
    exact ih fun y hy => h y (by simp [hy])

/-- Leading-whitespace stripping commutes with tab expansion. -/
theorem dropWhile_ws_expand (cs : List Char) :
    ((cs.map expandChar).flatten).dropWhile jsIsWs =
      ((cs.dropWhile jsIsWs).map expandChar).flatten := by
  induction cs with
  | nil => simp
  | cons c cs ih =>
    by_cases h : jsIsWs c = true
    · simp only [List.map_cons, List.flatten_cons]
      rw [dropWhile_ws_append_of_all (expandChar_ws h), ih, List.dropWhile_cons]
      simp [h]
    · simp only [Bool.not_eq_true] at h
      simp [List.map_cons, List.flatten_cons, expandChar_not_ws h,
        List.dropWhile_cons, h]

theorem jsTrimChars_eq_nil_iff (cs : List Char) :
    jsTrimChars cs = [] ↔ ∀ c ∈ cs, jsIsWs c = true := by
  constructor
  · intro h c hc
    have h1 : (cs.dropWhile jsIsWs).reverse.dropWhile jsIsWs = [] := by
      have := congrArg List.reverse h
      simpa [jsTrimChars] using this
    have h0 : ∀ x ∈ cs.dropWhile jsIsWs, jsIsWs x = true := by
      intro x hx
      exact List.dropWhile_eq_nil_iff.1 h1 x (by simpa using hx)
    rw [← List.takeWhile_append_dropWhile (p := jsIsWs) (l := cs)] at hc
    rcases List.mem_append.1 hc with hc | hc
    · exact List.mem_takeWhile_imp hc
    · exact h0 c hc
  · intro h
    simp only [jsTrimChars]
    have h2 : cs.dropWhile jsIsWs = [] := List.dropWhile_eq_nil_iff.2 fun c hc => h c hc
    simp [h2]

theorem dropWhile_ws_append_singleton {A : List Char} {c : Char}
    (h : jsIsWs c = false) :
    ∃ B, (A ++ [c]).dropWhile jsIsWs = B ++ [c] := by
  induction A with
  | nil => exact ⟨[], by simp [List.dropWhile_cons, h]⟩
  | cons a A ih =>
    by_cases ha : jsIsWs a = true
    · simpa [List.dropWhile_cons, ha] using ih
    · simp only [Bool.not_eq_true] at ha
      exact ⟨a :: A, by simp [List.dropWhile_cons, ha]⟩

/-- When the leading-stripped list begins with a non-ws character `c`, the
full trim also begins with `c`. -/
theorem jsTrimChars_head {cs : List Char} {c : Char} {X : List Char}
    (h : cs.dropWhile jsIsWs = c :: X) :
    ∃ Y, jsTrimChars cs = c :: Y := by
  have hc : jsIsWs c = false := by
    have := List.head_dropWhile_not jsIsWs (l := cs) (by simp [h])
    simpa [h] using this
  obtain ⟨B, hB⟩ := dropWhile_ws_append_singleton (A := X.reverse) hc
  refine ⟨B.reverse, ?_⟩
  simp only [jsTrimChars, h]
  rw [show (c :: X).reverse = X.reverse ++ [c] by simp, hB]
  simp

/-- A fully blank line stays blank after tab expansion. -/
theorem jsTrim_expandTabs_blank {l : String} (h : jsTrim l = "") :
    jsTrim (expandTabs l) = "" := by
  have hd : jsTrimChars l.data = [] := congrArg String.data h
  have hall : ∀ c ∈ l.data, jsIsWs c = true := (jsTrimChars_eq_nil_iff _).1 hd
  have : ∀ c ∈ (l.data.map expandChar).flatten, jsIsWs c = true := by
    intro c hc
    rw [List.mem_flatten] at hc
    obtain ⟨g, hg, hcg⟩ := hc
    rw [List.mem_map] at hg
    obtain ⟨d, hd2, rfl⟩ := hg
    exact expandChar_ws (hall d hd2) c hcg
  show (⟨jsTrimChars (expandTabs l).data⟩ : String) = ⟨[]⟩
  congr 1
  exact (jsTrimChars_eq_nil_iff _).2 (by simpa [expandTabs] using this)

/-- The trim of a list starting (after trimming) with a given character:
the leading-whitespace drop already starts with it. -/
theorem dropWhile_head_of_trim_head {cs : List Char} {c : Char} {Y : List Char}
    (h : jsTrimChars cs = c :: Y) :
    ∃ X, cs.dropWhile jsIsWs = c :: X := by
  cases hdw : cs.dropWhile jsIsWs with
  | nil =>
    exfalso
    have : jsTrimChars cs = [] := by simp [jsTrimChars, hdw]
    simp [this] at h
  | cons d X =>
    obtain ⟨Y', hY'⟩ := jsTrimChars_head hdw
    rw [h] at hY'
    injection hY' with h1 _
    subst h1
    exact ⟨X, rfl⟩

/-- A line whose trim starts with `#` still does after tab expansion. -/
theorem jsTrim_expandTabs_comment {l : String}
    (h : strStarts (jsTrim l) "#" = true) :
    strStarts (jsTrim (expandTabs l)) "#" = true := by
  have hpre : "#".data.isPrefixOf (jsTrimChars l.data) = true := h
  have hcons : ∃ Y, jsTrimChars l.data = '#' :: Y := by
    cases ht : jsTrimChars l.data with
    | nil => rw [ht] at hpre; exact absurd hpre (by decide)
    | cons d Z =>
      rw [ht] at hpre
      simp [List.isPrefixOf] at hpre
      exact ⟨Z, by rw [hpre]⟩
  obtain ⟨Y, hY⟩ := hcons
  obtain ⟨X, hX⟩ := dropWhile_head_of_trim_head hY
  have hexp : (expandTabs l).data.dropWhile jsIsWs = '#' :: (X.map expandChar).flatten := by
    have hdwe := dropWhile_ws_expand l.data
    rw [hX] at hdwe
    simpa [expandTabs, expandChar, List.flatten_cons] using hdwe
  obtain ⟨Z, hZ⟩ := jsTrimChars_head hexp
  show "#".data.isPrefixOf (jsTrimChars (expandTabs l).data) = true
  rw [hZ]
  simp [List.isPrefixOf]

/-- Lines that are blank or `#`-comments are skipped by the scope
decoder. -/
theorem scopeLineItem_skip {l : String}
    (h : jsTrim l = "" ∨ strStarts (jsTrim l) "#" = true) :
    scopeLineItem l = none := by
  unfold scopeLineItem
  rcases h with h | h
  · simp [jsTrim_expandTabs_blank h]
  · simp [jsTrim_expandTabs_comment h]

/-! ## Claim C5 -/

/-- C5: a scope block with at least one non-blank non-comment line but
zero decoded assertions makes the whole-file compilation fail with the
malformed-scope-block error; a block of only blank and comment lines
decodes without error to a `ScopeExpectation` with no assertions. -/
theorem C5_scope_block_errors :
    (∀ content : List String,
      (∃ l ∈ content, jsTrim l ≠ "" ∧ strStarts (jsTrim l) "#" = false) →
      scopeItemsOf content = [] →
      decodeScope content =
        .error "Scope expectation block must contain lines in the format: text => scope")
    ∧ (∀ content : List String,
        (∀ l ∈ content, jsTrim l = "" ∨ strStarts (jsTrim l) "#" = true) →
        decodeScope content = .ok (.scope [] []))
    ∧ parseFixtureFile
        "#+NAME: t\n#+BEGIN_FIXTURE\n#+END_FIXTURE\n#+EXPECTED: :type scope\nbadline"
        = .error "Scope expectation block must contain lines in the format: text => scope" := by
  refine ⟨?_, ?_, by rfl⟩
  · intro content hmean hempty
    obtain ⟨l, hl, hne, hns⟩ := hmean
    unfold decodeScope
    rw [scopeStep_foldl, hempty]
    have hany : content.any
        (fun l => !(jsTrim l == "") && !(strStarts (jsTrim l) "#")) = true :=
      List.any_eq_true.2 ⟨l, hl, by simp [hne, hns]⟩
    simp [hany]
  · intro content hall
    have hitems : scopeItemsOf content = [] := by
      apply List.filterMap_eq_nil_iff.2
      intro l hl
      exact scopeLineItem_skip (hall l hl)
    have hany : content.any
        (fun l => !(jsTrim l == "") && !(strStarts (jsTrim l) "#")) = false := by
      apply List.any_eq_false.2
      intro l hl
      rcases hall l hl with h | h <;> simp [h]
    unfold decodeScope
    rw [scopeStep_foldl, hitems]
    simp [hany, popCarry]

/-- Witness for the hypothesis-bearing conjuncts of
`C5_scope_block_errors`. -/
theorem C5_scope_block_errors_witness :
    decodeScope ["badline"] =
        .error "Scope expectation block must contain lines in the format: text => scope" ∧
      decodeScope ["# note", "", "  "] = .ok (.scope [] []) :=
  ⟨C5_scope_block_errors.1 ["badline"]
      ⟨"badline", by simp, by decide, by decide⟩ (by rfl),
    C5_scope_block_errors.2.1 ["# note", "", "  "] (by decide)⟩

/-! ## Claim C7 -/

theorem scopeTokensRoute_acc (toks : List String) (mc mnc : List String) :
    toks.foldl
        (fun (p : List String × List String) sc =>
          if strStarts sc "!" then (p.1, p.2 ++ [⟨sc.data.drop 1⟩])
          else (p.1 ++ [sc], p.2))
        (mc, mnc) =
      (mc ++ toks.filter (fun s => !(strStarts s "!")),
       mnc ++ (toks.filter (fun s => strStarts s "!")).map (fun s => (⟨s.data.drop 1⟩ : String))) := by
  induction toks generalizing mc mnc with
  | nil => simp
  | cons t ts ih =>
    rw [List.foldl_cons]
    by_cases h : strStarts t "!" = true
    · rw [if_pos h, ih]
      simp [List.filter_cons, h, List.drop_one, List.append_assoc]
    · rw [if_neg h, ih]
      simp only [Bool.not_eq_true] at h
      simp [List.filter_cons, h, List.drop_one, List.append_assoc]

/-- C7: a scope-assertion line decodes with the text left of the first
`=>` (bullet-stripped, quote-stripped, escape-normalized) as `text`, and
each nonempty trimmed comma token right of `=>` routed to `mustNotContain`
with the leading `!` stripped, or to `mustContain` otherwise; in
particular `foo => scope.a, !scope.b` gives
`{text := "foo", mustContain := ["scope.a"], mustNotContain := ["scope.b"]}`. -/
theorem C7_scope_line_roundtrip :
    scopeLineItem "foo => scope.a, !scope.b" =
        some (0, ⟨"foo", ["scope.a"], ["scope.b"]⟩)
    ∧ (∀ toks : List String,
        scopeTokensRoute toks =
          (toks.filter (fun s => !(strStarts s "!")),
           (toks.filter (fun s => strStarts s "!")).map (fun s => (⟨s.data.drop 1⟩ : String))))
    ∧ scopeLineItem "  - \"a<sp:2>b\" => x, !y, , z" =
        some (2, ⟨"a  b", ["x", "z"], ["y"]⟩)
    ∧ scopeTokensOf "scope.a, !scope.b" = ["scope.a", "!scope.b"] := by
  refine ⟨by rfl, ?_, by rfl, by rfl⟩
  intro toks
  simpa [scopeTokensRoute] using scopeTokensRoute_acc toks [] []

/-! ## Claim C2 -/

/-- The `no-match` test of the regex branch. -/
def noMatchLine (l : String) : Bool := jsToLower (jsTrim l) == "no-match"

/-- One line of the regex branch's first loop, as an option: the trimmed
line when it is collected into `tableLines`. -/
def tableLineOf (l : String) : Option String :=
  if noMatchLine l then none
  else if strStarts (jsTrim l) "|" then some (jsTrim l) else none

/-- Final `shouldMatch` of a regex block. -/
def shouldMatchOf (content : List String) : Bool := !(content.any noMatchLine)

theorem regexScanStep_foldl (content : List String) (b : Bool) (tl : List String) :
    content.foldl regexScanStep (b, tl) =
      (b && shouldMatchOf content, tl ++ content.filterMap tableLineOf) := by
  induction content generalizing b tl with
  | nil => simp [shouldMatchOf]
  | cons l ls ih =>
    rw [List.foldl_cons]
    simp only [regexScanStep]
    by_cases h : (jsToLower (jsTrim l) == "no-match") = true
    · rw [if_pos h, ih]
      have h2 : noMatchLine l = true := h
      simp [shouldMatchOf, tableLineOf, h2, List.filterMap_cons, List.any_cons]
    · rw [if_neg h]
      have h2 : noMatchLine l = false := by
        simpa [noMatchLine] using h
      by_cases hb : strStarts (jsTrim l) "|" = true
      · rw [if_pos hb, ih]
        simp [shouldMatchOf, tableLineOf, h2, hb, List.filterMap_cons,
          List.any_cons, List.append_assoc]
      · rw [if_neg hb, ih]
        have hb2 : strStarts (jsTrim l) "|" = false := by simpa using hb
        simp [shouldMatchOf, tableLineOf, h2, hb2, List.filterMap_cons,
          List.any_cons]

/-- C2 fails as stated: a table row whose second cell is non-numeric (here
`a`) still contributes a capture entry — with `parseInt` giving `NaN`
(modelled `none`) — because the code only skips the exact header label
`Group #` and cells containing `---`. -/
theorem C2_counterexample :
    decodeRegex "#+EXPECTED: :type regex :name r"
        (parseExpectedArgs "#+EXPECTED: :type regex :name r") ["| a | x |"] =
      .ok (.regex "r" true (some [⟨none, "x"⟩]))
    ∧ [(⟨none, "x"⟩ : Capture)] ≠ [] := by
  exact ⟨by rfl, by simp⟩

/-- C2 (amended): the decoded captures contain exactly one entry per
collected table row (trimmed content line starting with `|`, in line
order, duplicates kept) that splits into at least three cells whose second
cell is neither the literal `Group #` nor contains `---`; the entry's
index is the JS `parseInt` of that cell (`NaN`/`none` when non-numeric)
and its value is the third cell run through the Value Normalizer. -/
theorem C2_captures :
    (∀ el args content name, getArg args "name" = some name →
      decodeRegex el args content =
        .ok (.regex name (shouldMatchOf content)
          (if shouldMatchOf content then
            some ((content.filterMap tableLineOf).filterMap captureRow)
           else none)))
    ∧ (∀ l p0 p1 p2 rest,
        (splitCh '|' l.data).map (fun g => (jsTrim ⟨g⟩ : String)) = p0 :: p1 :: p2 :: rest →
        captureRow l =
          if p1 ≠ "Group #" ∧ ¬ strIncludes p1 "---" then
            some ⟨jsParseIntDec p1, processExpectedValue p2⟩
          else none)
    ∧ (∀ l, ((splitCh '|' l.data).map (fun g => (jsTrim ⟨g⟩ : String))).length < 3 →
        captureRow l = none)
    ∧ ["| 1 | a |", "| 1 | b |"].filterMap captureRow =
        [⟨some 1, "a"⟩, ⟨some 1, "b"⟩] := by
  refine ⟨?_, ?_, ?_, by rfl⟩
  · intro el args content name hname
    unfold decodeRegex
    rw [hname, regexScanStep_foldl]
    simp
  · intro l p0 p1 p2 rest h
    unfold captureRow
    rw [h]
  · intro l h
    unfold captureRow
    cases hm : (splitCh '|' l.data).map (fun g => (jsTrim ⟨g⟩ : String)) with
    | nil => rfl
    | cons a t =>
      cases t with
      | nil => rfl
      | cons b t2 =>
        cases t2 with
        | nil => rfl
        | cons c t3 => rw [hm] at h; simp at h; omega

/-- Witness for the hypothesis-bearing conjuncts of `C2_captures`. -/
theorem C2_captures_witness :
    decodeRegex "#+EXPECTED: :type regex :name r2"
        (parseExpectedArgs "#+EXPECTED: :type regex :name r2") ["| 7 | v |"] =
      .ok (.regex "r2" (shouldMatchOf ["| 7 | v |"])
        (if shouldMatchOf ["| 7 | v |"] then
          some ((["| 7 | v |"].filterMap tableLineOf).filterMap captureRow)
         else none)) :=
  C2_captures.1 "#+EXPECTED: :type regex :name r2"
    (parseExpectedArgs "#+EXPECTED: :type regex :name r2") ["| 7 | v |"] "r2" (by rfl)

/-! ## Claim C10 -/

/-- C10: an `#+EXPECTED:` directive whose `:type` is absent or not one of
the four recognized kinds raises no error: its content block is still
delimited and consumed (the loop resumes right after it) but no
expectation is appended. -/
theorem C10_unknown_type :
    (∀ el : String, ∀ content : List String,
      getArg (parseExpectedArgs el) "type" ≠ some "regex" →
      getArg (parseExpectedArgs el) "type" ≠ some "scope" →
      getArg (parseExpectedArgs el) "type" ≠ some "folding" →
      getArg (parseExpectedArgs el) "type" ≠ some "symbols" →
      decodeOne el content = .ok [])
    ∧ (∀ (f : Nat) (el : String) (ls : List String),
        decodeOne el (blockExtent ls).1 = .ok [] →
        isExpectedScan el = true →
        expLoop (f + 1) (el :: ls) = expLoop f (dropBlankLines (blockExtent ls).2))
    ∧ parseFixtureFile
        "#+NAME: t\n#+BEGIN_FIXTURE\n#+END_FIXTURE\n#+EXPECTED: :type bogus\nstuff\n#+EXPECTED: :type folding\n[1-2]"
        = .ok [⟨"t", "", [.folding [(1, 2)]]⟩] := by
  refine ⟨?_, ?_, by rfl⟩
  · intro el content h1 h2 h3 h4
    simp only [decodeOne]
    cases ht : getArg (parseExpectedArgs el) "type" with
    | none => rfl
    | some t =>
      rw [ht] at h1 h2 h3 h4
      have n1 : t ≠ "regex" := fun e => h1 (by rw [e])
      have n2 : t ≠ "scope" := fun e => h2 (by rw [e])
      have n3 : t ≠ "folding" := fun e => h3 (by rw [e])
      have n4 : t ≠ "symbols" := fun e => h4 (by rw [e])
      simp [n1, n2, n3, n4]
  · intro f el ls hdec hexp
    conv_lhs => rw [expLoop]
    rw [if_pos hexp]
    simp only [hdec]
    cases h2 : expLoop f (dropBlankLines (blockExtent ls).2) with
    | error e => rfl
    | ok p =>
      obtain ⟨more, fin⟩ := p
      rfl

/-- Witness for the hypothesis-bearing conjuncts of `C10_unknown_type`. -/
theorem C10_unknown_type_witness :
    decodeOne "#+EXPECTED: :type bogus" ["stuff"] = .ok [] ∧
      expLoop 3 ["#+EXPECTED: :type bogus", "stuff"] =
        expLoop 2 (dropBlankLines (blockExtent ["stuff"]).2) :=
  ⟨C10_unknown_type.1 "#+EXPECTED: :type bogus" ["stuff"]
      (by decide) (by decide) (by decide) (by decide),
    C10_unknown_type.2.1 2 "#+EXPECTED: :type bogus" ["stuff"] (by rfl) (by rfl)⟩

/-! ## Claim C8 -/

theorem takeWhile_append_all {α : Type} {p : α → Bool} {A B : List α}
    (h : ∀ a ∈ A, p a = true) :
    (A ++ B).takeWhile p = A ++ B.takeWhile p := by
  induction A with
  | nil => simp
  | cons a A ih =>
    have ha := h a (by simp)
    simp [List.cons_append, List.takeWhile_cons, ha,
      ih fun x hx => h x (by simp [hx])]

theorem dropWhile_append_all {α : Type} {p : α → Bool} {A B : List α}
    (h : ∀ a ∈ A, p a = true) :
    (A ++ B).dropWhile p = B.dropWhile p := by
  induction A with
  | nil => simp
  | cons a A ih =>
    have ha := h a (by simp)
    simp [List.cons_append, List.dropWhile_cons, ha,
      ih fun x hx => h x (by simp [hx])]

/-- C8 fails as stated: the three replaces are sequential passes, so a
later pass rescans text produced by an earlier pass.  `<<sp:0>tab>`
contains no `<tab>` occurrence, yet the `<sp:0>` expansion (zero spaces)
creates one that the second pass turns into a tab. -/
theorem C8_counterexample :
    processExpectedValue "<<sp:0>tab>" = "\t" ∧
      processExpectedValue "<<sp:0>tab>" ≠ "<tab>" := by
  exact ⟨by rfl, by decide⟩

/-- One well-formed `<sp:N>` token at the head of the scan is replaced by
its spaces and the scan continues after it (within-pass, not rescanning
the replacement). -/
theorem replaceSpF_head (f : Nat) (ds v : List Char)
    (hne : ds ≠ []) (hdig : ∀ c ∈ ds, c.isDigit = true) :
    replaceSpF (f + 1) ('<' :: 's' :: 'p' :: ':' :: (ds ++ '>' :: v)) =
      List.replicate (natOfDigits ds) ' ' ++ replaceSpF f v := by
  have ht : (ds ++ '>' :: v).takeWhile Char.isDigit = ds := by
    rw [takeWhile_append_all hdig]
    simp [List.takeWhile_cons]
  have hd : (ds ++ '>' :: v).dropWhile Char.isDigit = '>' :: v := by
    rw [dropWhile_append_all hdig]
    simp [List.dropWhile_cons]
  have htok : spTok ('s' :: 'p' :: ':' :: (ds ++ '>' :: v)) =
      some (natOfDigits ds, v) := by
    cases ds with
    | nil => exact absurd rfl hne
    | cons d ds' =>
      unfold spTok
      simp only [ht, hd]
  conv_lhs => rw [replaceSpF]
  rw [if_pos rfl, htok]

/-- One literal token at the head of the scan is replaced and the scan
continues after it. -/
theorem litReplaceF_head (pat rep : List Char) (f : Nat) (v : List Char)
    (hne : pat ≠ []) :
    litReplaceF pat rep (f + 1) (pat ++ v) = rep ++ litReplaceF pat rep f v := by
  have hpre : pat.isPrefixOf (pat ++ v) = true := by
    induction pat with
    | nil => simp [List.isPrefixOf]
    | cons p ps ih => simp [List.isPrefixOf, ih]
  cases pat with
  | nil => exact absurd rfl hne
  | cons q qs =>
    show litReplaceF (q :: qs) rep (f + 1) (q :: (qs ++ v)) = _
    conv_lhs => rw [litReplaceF]
    rw [if_pos (by simpa using hpre)]
    have hdrop : (q :: (qs ++ v)).drop (q :: qs).length = v := by
      simpa using List.drop_left (q :: qs) v
    rw [hdrop]

/-- A scan with no `<` character changes nothing (for the `<sp:N>` pass
and for any literal pass whose pattern starts with `<`). -/
theorem replace_no_lt (f : Nat) (cs : List Char) (h : '<' ∉ cs) :
    replaceSpF f cs = cs ∧
      ∀ (ps rep : List Char), litReplaceF ('<' :: ps) rep f cs = cs := by
  induction f generalizing cs with
  | zero => exact ⟨rfl, fun _ _ => rfl⟩
  | succ f ih =>
    cases cs with
    | nil => exact ⟨rfl, fun _ _ => rfl⟩
    | cons c cs' =>
      have hc : c ≠ '<' := fun e => h (by rw [e]; simp)
      have hcs : '<' ∉ cs' := fun e => h (by simp [e])
      constructor
      · conv_lhs => rw [replaceSpF]
        rw [if_neg hc]
        rw [(ih cs' hcs).1]
      · intro ps rep
        conv_lhs => rw [litReplaceF]
        rw [if_neg (by simp [List.isPrefixOf]; intro e; exact absurd e.symm hc)]
        rw [(ih cs' hcs).2 ps rep]

/-- C8 (amended): the Value Normalizer is the composition of three
sequential global passes — `<sp:N>` expansion, then `<tab>`, then
`<pipe>`.  Within a pass the replacement text is not rescanned and the
scan continues after each replaced token, but a later pass scans the
whole output of the earlier passes, so text assembled by an earlier
replacement can be consumed by a later pass.  Malformed tokens such as
`<sp:>` are left verbatim, and a string without `<` is returned
unchanged. -/
theorem C8_normalizer :
    (∀ s : String, processExpectedValue s = replacePipe (replaceTab (replaceSp s)))
    ∧ (∀ (f : Nat) (ds v : List Char), ds ≠ [] → (∀ c ∈ ds, c.isDigit = true) →
        replaceSpF (f + 1) ('<' :: 's' :: 'p' :: ':' :: (ds ++ '>' :: v)) =
          List.replicate (natOfDigits ds) ' ' ++ replaceSpF f v)
    ∧ (∀ (pat rep : List Char) (f : Nat) (v : List Char), pat ≠ [] →
        litReplaceF pat rep (f + 1) (pat ++ v) = rep ++ litReplaceF pat rep f v)
    ∧ (∀ (f : Nat) (cs : List Char), '<' ∉ cs → replaceSpF f cs = cs)
    ∧ (∀ s : String, '<' ∉ s.data → processExpectedValue s = s)
    ∧ processExpectedValue "<sp:>" = "<sp:>"
    ∧ processExpectedValue "a<sp:2>b<tab><pipe>" = "a  b\t|" := by
  refine ⟨fun s => rfl, replaceSpF_head, litReplaceF_head, ?_, ?_, by rfl, by rfl⟩
  · intro f cs h
    exact (replace_no_lt f cs h).1
  · intro s h
    have h1 : replaceSp s = s := by
      show (⟨replaceSpF s.data.length s.data⟩ : String) = s
      rw [(replace_no_lt s.data.length s.data h).1]
    have h2 : replaceTab s = s := by
      show (⟨litReplaceF "<tab>".data "\t".data s.data.length s.data⟩ : String) = s
      rw [(replace_no_lt s.data.length s.data h).2 "tab>".data "\t".data]
    have h3 : replacePipe s = s := by
      show (⟨litReplaceF "<pipe>".data "|".data s.data.length s.data⟩ : String) = s
      rw [(replace_no_lt s.data.length s.data h).2 "pipe>".data "|".data]
    show replacePipe (replaceTab (replaceSp s)) = s
    rw [h1, h2, h3]

/-- Witness for the hypothesis-bearing conjuncts of `C8_normalizer`. -/
theorem C8_normalizer_witness :
    replaceSpF 1 ('<' :: 's' :: 'p' :: ':' :: (['4'] ++ '>' :: ['z'])) =
        List.replicate (natOfDigits ['4']) ' ' ++ replaceSpF 0 ['z'] ∧
      processExpectedValue "plain" = "plain" :=
  ⟨C8_normalizer.2.1 0 ['4'] ['z'] (by decide) (by decide),
    C8_normalizer.2.2.2.2.1 "plain" (by decide)⟩

/-! ## Loop lemmas for the fixture file compiler -/

theorem findEnd_none {L : List String} (h : ∀ l ∈ L, isEndScan l = false) :
    findEnd L = none := by
  induction L with
  | nil => rfl
  | cons l ls ih =>
    unfold findEnd
    rw [if_neg (by simp [h l (by simp)])]
    rw [ih fun x hx => h x (by simp [hx])]
    rfl

theorem findEnd_cons_end {l : String} {ls : List String}
    (h : isEndScan l = true) : findEnd (l :: ls) = some ([], ls) := by
  unfold findEnd
  rw [if_pos h]

theorem findEnd_after_length {L fx after : List String}
    (h : findEnd L = some (fx, after)) : after.length < L.length := by
  induction L generalizing fx after with
  | nil => simp [findEnd] at h
  | cons l ls ih =>
    unfold findEnd at h
    by_cases he : isEndScan l = true
    · rw [if_pos he] at h
      injection h with h'
      injection h' with h1 h2
      subst h2
      simp
    · rw [if_neg he] at h
      cases hf : findEnd ls with
      | none => rw [hf] at h; simp at h
      | some p =>
        rw [hf] at h
        injection h with h'
        obtain ⟨p1, p2⟩ := p
        injection h' with h1 h2
        subst h2
        have := ih hf
        simp
        omega

theorem length_dropWhile_le' {α : Type} (p : α → Bool) (L : List α) :
    (L.dropWhile p).length ≤ L.length := by
  induction L with
  | nil => simp
  | cons a l ih =>
    rw [List.dropWhile_cons]
    by_cases h : p a = true
    · rw [if_pos h]; simp; omega
    · rw [if_neg h]

theorem blockExtent_rest_length (ls : List String) :
    (blockExtent ls).2.length ≤ ls.length := by
  rw [blockExtent_eq_split]
  exact length_dropWhile_le' _ ls

theorem dropBlankLines_length (ls : List String) :
    (dropBlankLines ls).length ≤ ls.length :=
  length_dropWhile_le' _ ls

theorem expLoop_rest_length :
    ∀ (f : Nat) (L : List String) (es : List Expectation) (rest : List String),
      expLoop f L = .ok (es, rest) → rest.length ≤ L.length := by
  intro f
  induction f with
  | zero =>
    intro L es rest h
    injection h with h'
    injection h' with _ h2
    subst h2
    exact le_refl _
  | succ f ih =>
    intro L es rest h
    cases L with
    | nil =>
      injection h with h'
      injection h' with _ h2
      subst h2
      simp
    | cons l ls =>
      unfold expLoop at h
      by_cases hx : isExpectedScan l = true
      · rw [if_pos hx] at h
        dsimp only at h
        cases hd : decodeOne l (blockExtent ls).1 with
        | error e => rw [hd] at h; simp at h
        | ok es0 =>
          rw [hd] at h
          cases h2 : expLoop f (dropBlankLines (blockExtent ls).2) with
          | error e => rw [h2] at h; simp at h
          | ok p =>
            obtain ⟨more, fin⟩ := p
            rw [h2] at h
            injection h with h'
            injection h' with _ hfin
            have hc1 := ih _ _ _ h2
            have hc2 := dropBlankLines_length (blockExtent ls).2
            have hc3 := blockExtent_rest_length ls
            rw [← hfin]
            simp only [List.length_cons]
            omega
      · rw [if_neg hx] at h
        injection h with h'
        injection h' with _ h2
        subst h2
        exact le_refl _

theorem expLoop_fuel :
    ∀ (f : Nat) (g : Nat) (L : List String), L.length ≤ f → L.length ≤ g →
      expLoop f L = expLoop g L := by
  intro f
  induction f with
  | zero =>
    intro g L hf hg
    have : L = [] := List.length_eq_zero.1 (Nat.le_zero.1 hf)
    subst this
    cases g <;> rfl
  | succ f ih =>
    intro g L hf hg
    cases L with
    | nil => cases g <;> rfl
    | cons l ls =>
      have hg1 : 1 ≤ g := le_trans (by simp) hg
      obtain ⟨g', rfl⟩ : ∃ g', g = g' + 1 :=
        ⟨g - 1, by omega⟩
      conv_lhs => rw [expLoop]
      conv_rhs => rw [expLoop]
      by_cases hx : isExpectedScan l = true
      · rw [if_pos hx, if_pos hx]
        dsimp only
        simp only [List.length_cons] at hf hg
        have hlen : (dropBlankLines (blockExtent ls).2).length ≤ f := by
          have h1 := dropBlankLines_length (blockExtent ls).2
          have h2 := blockExtent_rest_length ls
          omega
        have hlen2 : (dropBlankLines (blockExtent ls).2).length ≤ g' := by
          have h1 := dropBlankLines_length (blockExtent ls).2
          have h2 := blockExtent_rest_length ls
          omega
        rw [ih g' (dropBlankLines (blockExtent ls).2) hlen hlen2]
      · rw [if_neg hx, if_neg hx]

theorem parseFixtureLoop_fuel :
    ∀ (f : Nat) (g : Nat) (L : List String), L.length ≤ f → L.length ≤ g →
      parseFixtureLoop f L = parseFixtureLoop g L := by
  intro f
  induction f with
  | zero =>
    intro g L hf hg
    have : L = [] := List.length_eq_zero.1 (Nat.le_zero.1 hf)
    subst this
    cases g <;> rfl
  | succ f ih =>
    intro g L hf hg
    cases L with
    | nil => cases g <;> rfl
    | cons l ls =>
      simp only [List.length_cons] at hf hg
      obtain ⟨g', rfl⟩ : ∃ g', g = g' + 1 := ⟨g - 1, by omega⟩
      have hls_f : ls.length ≤ f := by omega
      have hls_g : ls.length ≤ g' := by omega
      conv_lhs => rw [parseFixtureLoop.eq_def]
      conv_rhs => rw [parseFixtureLoop.eq_def]
      dsimp only
      by_cases hn : (!isNameScan l) = true
      · rw [if_pos hn, if_pos hn]
        exact ih g' ls hls_f hls_g
      · rw [if_neg hn, if_neg hn]
        cases ls with
        | nil => rfl
        | cons b bs =>
          dsimp only
          by_cases hb : (!isBeginScan b) = true
          · rw [if_pos hb, if_pos hb]
            exact ih g' (b :: bs) hls_f hls_g
          · rw [if_neg hb, if_neg hb]
            cases hfe : findEnd bs with
            | none => exact ih g' (b :: bs) hls_f hls_g
            | some p =>
              obtain ⟨fx, after⟩ := p
              dsimp only
              have haft : after.length < bs.length := findEnd_after_length hfe
              have haft_f : after.length ≤ f := by
                simp only [List.length_cons] at hls_f
                omega
              have haft_g : after.length ≤ g' := by
                simp only [List.length_cons] at hls_g
                omega
              cases hla : dropBlankLines after with
              | nil => exact ih g' after haft_f haft_g
              | cons lh rest =>
                dsimp only
                by_cases hx : isExpectedScan lh = true
                · rw [if_pos hx, if_pos hx]
                  cases hexp : expLoop (lh :: rest).length (lh :: rest) with
                  | error e => rfl
                  | ok q =>
                    obtain ⟨exps, fin⟩ := q
                    dsimp only
                    have hfin : fin.length ≤ (lh :: rest).length :=
                      expLoop_rest_length _ _ _ _ hexp
                    have hfin2 : (lh :: rest).length ≤ after.length := by
                      rw [← hla]
                      exact dropBlankLines_length after
                    rw [ih g' fin (by omega) (by omega)]
                · rw [if_neg hx, if_neg hx]
                  exact ih g' after haft_f haft_g

theorem parseFixtureLoop_no_end :
    ∀ (f : Nat) (L : List String), (∀ l ∈ L, isEndScan l = false) →
      parseFixtureLoop f L = .ok [] := by
  intro f
  induction f with
  | zero => intro L h; rfl
  | succ f ih =>
    intro L h
    cases L with
    | nil => rfl
    | cons l ls =>
      rw [parseFixtureLoop.eq_def]
      dsimp only
      by_cases hn : (!isNameScan l) = true
      · rw [if_pos hn]
        exact ih ls fun x hx => h x (by simp [hx])
      · rw [if_neg hn]
        cases ls with
        | nil => rfl
        | cons b bs =>
          dsimp only
          by_cases hb : (!isBeginScan b) = true
          · rw [if_pos hb]
            exact ih (b :: bs) fun x hx => h x (by simp [hx])
          · rw [if_neg hb]
            rw [findEnd_none fun x hx => h x (by simp [hx])]
            exact ih (b :: bs) fun x hx => h x (by simp [hx])

/-- One container whose `#+BEGIN_FIXTURE` line is immediately closed by an
`#+END_FIXTURE` line and is not followed (after blanks) by an
`#+EXPECTED:` directive contributes nothing: the scan just continues. -/
theorem parseFixtureLoop_skip_container
    (f : Nat) (nm bg ed : String) (post : List String)
    (hnm : isNameScan nm = true) (hbg : isBeginScan bg = true)
    (hed : isEndScan ed = true)
    (hpost : ∀ lh rest, dropBlankLines post = lh :: rest → isExpectedScan lh = false) :
    parseFixtureLoop (f + 1) (nm :: bg :: ed :: post) = parseFixtureLoop f post := by
  rw [parseFixtureLoop.eq_def]
  dsimp only
  rw [if_neg (by simp [hnm])]
  rw [if_neg (by simp [hbg])]
  rw [findEnd_cons_end hed]
  dsimp only
  cases hla : dropBlankLines post with
  | nil => rfl
  | cons lh rest =>
    dsimp only
    rw [if_neg (by simp [hpost lh rest hla])]

/-! ## Claim C9 -/

/-- C9: an input whose fixture container is unmatched (no subsequent
`#+END_FIXTURE` anywhere) makes the compiler throw nothing — in a file
with no end-directive at all every container is silently dropped and the
result is an empty (error-free) test list; a preceding well-formed
container in the same file is still compiled while the trailing unmatched
one is dropped. -/
theorem C9_unmatched_fixture :
    (∀ (f : Nat) (L : List String), (∀ l ∈ L, isEndScan l = false) →
      parseFixtureLoop f L = .ok [])
    ∧ (∀ L : List String, (∀ l ∈ L, isEndScan l = false) →
        parseFixtureFileLines L = .ok [])
    ∧ parseFixtureFile
        "#+NAME: a\n#+BEGIN_FIXTURE\nx\n#+END_FIXTURE\n#+EXPECTED: :type folding\n[0-1]\n#+NAME: b\n#+BEGIN_FIXTURE\ny"
        = .ok [⟨"a", "x", [.folding [(0, 1)]]⟩] := by
  refine ⟨parseFixtureLoop_no_end, ?_, by rfl⟩
  intro L h
  exact parseFixtureLoop_no_end L.length L h

/-- Witness for the hypothesis-bearing conjuncts of
`C9_unmatched_fixture`. -/
theorem C9_unmatched_fixture_witness :
    (∀ l ∈ ["#+NAME: t", "#+BEGIN_FIXTURE", "z"], isEndScan l = false) ∧
      parseFixtureFileLines ["#+NAME: t", "#+BEGIN_FIXTURE", "z"] = .ok [] :=
  ⟨by decide, C9_unmatched_fixture.2.1 ["#+NAME: t", "#+BEGIN_FIXTURE", "z"] (by decide)⟩

/-! ## Claim C1 -/

/-- C1 fails as stated: a fixture container not followed by any
`#+EXPECTED:` directive yields NO test case at all — the compiler output
for this file is the empty list, not a singleton with empty
expectations. -/
theorem C1_counterexample :
    parseFixtureFile "#+NAME: t\n#+BEGIN_FIXTURE\n#+END_FIXTURE" = .ok [] ∧
      parseFixtureFile "#+NAME: t\n#+BEGIN_FIXTURE\n#+END_FIXTURE" ≠
        .ok [⟨"t", "", []⟩] :=
  ⟨rfl, fun hc => List.noConfusion (Except.ok.inj hc)⟩

/-- C1 (amended): a fixture container that is not followed, after blank
lines, by an `#+EXPECTED:` directive yields no `FixtureTestCase` — the
scan behaves as if the container were absent; a container whose following
`#+EXPECTED:` run decodes to zero expectations (e.g. an unrecognized
`:type`) does yield a test case with name and input set and an empty
expectations sequence, and a container with zero interior lines has
`input = ""`. -/
theorem C1_no_expected_no_testcase :
    (∀ (f : Nat) (nm bg ed : String) (post : List String),
      isNameScan nm = true → isBeginScan bg = true → isEndScan ed = true →
      (∀ lh rest, dropBlankLines post = lh :: rest → isExpectedScan lh = false) →
      parseFixtureLoop (f + 1) (nm :: bg :: ed :: post) = parseFixtureLoop f post)
    ∧ (∀ (nm bg ed : String) (post : List String),
      isNameScan nm = true → isBeginScan bg = true → isEndScan ed = true →
      (∀ lh rest, dropBlankLines post = lh :: rest → isExpectedScan lh = false) →
      parseFixtureFileLines (nm :: bg :: ed :: post) = parseFixtureFileLines post)
    ∧ parseFixtureFile "#+NAME: t\n#+BEGIN_FIXTURE\n#+END_FIXTURE\n#+EXPECTED: :type bogus"
        = .ok [⟨"t", "", []⟩] := by
  refine ⟨parseFixtureLoop_skip_container, ?_, by rfl⟩
  intro nm bg ed post h1 h2 h3 h4
  calc parseFixtureFileLines (nm :: bg :: ed :: post)
      = parseFixtureLoop (post.length + 2 + 1) (nm :: bg :: ed :: post) := rfl
    _ = parseFixtureLoop (post.length + 2) post :=
        parseFixtureLoop_skip_container _ nm bg ed post h1 h2 h3 h4
    _ = parseFixtureLoop post.length post :=
        parseFixtureLoop_fuel _ _ _ (by omega) (le_refl _)
    _ = parseFixtureFileLines post := rfl

/-- Witness for the hypothesis-bearing conjuncts of
`C1_no_expected_no_testcase`. -/
theorem C1_no_expected_no_testcase_witness :
    parseFixtureFileLines ["#+NAME: t", "#+BEGIN_FIXTURE", "#+END_FIXTURE", "tail"] =
      parseFixtureFileLines ["tail"] :=
  C1_no_expected_no_testcase.2.1 "#+NAME: t" "#+BEGIN_FIXTURE" "#+END_FIXTURE" ["tail"]
    (by decide) (by decide) (by decide)
    (by intro lh rest h; injection h with h1 _; rw [← h1]; decide)

/-! ## The recursive characterization of the depth-stack builder

`buildRec` rebuilds the forest top-down: the first item is a root whose
subtree consists of the following items of strictly greater depth, up to
the first item of depth `≤` its own.  `buildFromItems` (the embedding of
the source's stack loop) is proved equal to it below. -/

theorem length_takeWhile_le' {α : Type} (p : α → Bool) (L : List α) :
    (L.takeWhile p).length ≤ L.length := by
  induction L with
  | nil => simp
  | cons a l ih =>
    rw [List.takeWhile_cons]
    by_cases h : p a = true
    · rw [if_pos h]; simp; omega
    · rw [if_neg h]; simp

def buildRec : List (Nat × α) → List (PTree α)
  | [] => []
  | (d, a) :: rest =>
    .node a (buildRec (rest.takeWhile (fun p => d < p.1))) ::
      buildRec (rest.dropWhile (fun p => d < p.1))
termination_by l => l.length
decreasing_by
  · simpa using Nat.lt_succ_of_le (length_takeWhile_le' _ _)
  · simpa using Nat.lt_succ_of_le (length_dropWhile_le' _ _)

/-- The stack run with explicit initial stack and roots, ending with the
final flush. -/
def runStack (items : List (Nat × α)) (s : List (Nat × α × List (PTree α)))
    (r : List (PTree α)) : List (PTree α) :=
  let st := items.foldl insertItem (s, r)
  (popCarry 0 st.1 none st.2).2

theorem buildFromItems_eq_runStack (items : List (Nat × α)) :
    buildFromItems items = runStack items [] [] := rfl

/-- A pending finished node threaded into `popCarry` is the same as having
already attached it to the children of the top entry. -/
theorem popCarry_pend_attach (d₃ d₂ : Nat) (a₂ : α)
    (cs₂ : List (PTree α)) (s : List (Nat × α × List (PTree α)))
    (r : List (PTree α)) (t : PTree α) :
    popCarry d₃ ((d₂, a₂, cs₂) :: s) (some t) r =
      popCarry d₃ ((d₂, a₂, cs₂ ++ [t]) :: s) none r := by
  conv_lhs => rw [popCarry]
  conv_rhs => rw [popCarry]

theorem runStack_pop_attach (items : List (Nat × α)) (d : Nat) (a : α)
    (cs : List (PTree α)) (d₂ : Nat) (a₂ : α) (cs₂ : List (PTree α))
    (s : List (Nat × α × List (PTree α))) (r : List (PTree α))
    (hhead : ∀ d₃ a₃ rest, items = (d₃, a₃) :: rest → d₃ ≤ d) :
    runStack items ((d, a, cs) :: (d₂, a₂, cs₂) :: s) r =
      runStack items ((d₂, a₂, cs₂ ++ [PTree.node a cs]) :: s) r := by
  cases items with
  | nil =>
    show (popCarry 0 ((d, a, cs) :: (d₂, a₂, cs₂) :: s) none r).2 =
      (popCarry 0 ((d₂, a₂, cs₂ ++ [PTree.node a cs]) :: s) none r).2
    conv_lhs => rw [popCarry]
    rw [if_pos (Nat.zero_le d)]
    rw [popCarry_pend_attach]
  | cons x rest =>
    obtain ⟨d₃, a₃⟩ := x
    have hle : d₃ ≤ d := hhead d₃ a₃ rest rfl
    show runStack rest
        (insertItem ((d, a, cs) :: (d₂, a₂, cs₂) :: s, r) (d₃, a₃)).1
        (insertItem ((d, a, cs) :: (d₂, a₂, cs₂) :: s, r) (d₃, a₃)).2 =
      runStack rest
        (insertItem ((d₂, a₂, cs₂ ++ [PTree.node a cs]) :: s, r) (d₃, a₃)).1
        (insertItem ((d₂, a₂, cs₂ ++ [PTree.node a cs]) :: s, r) (d₃, a₃)).2
    unfold insertItem
    have hstep : popCarry d₃ ((d, a, cs) :: (d₂, a₂, cs₂) :: s) none r =
        popCarry d₃ ((d₂, a₂, cs₂ ++ [PTree.node a cs]) :: s) none r := by
      conv_lhs => rw [popCarry]
      rw [if_pos hle]
      rw [popCarry_pend_attach]
    rw [hstep]

theorem runStack_pop_root (items : List (Nat × α)) (d : Nat) (a : α)
    (cs : List (PTree α)) (r : List (PTree α))
    (hhead : ∀ d₃ a₃ rest, items = (d₃, a₃) :: rest → d₃ ≤ d) :
    runStack items [(d, a, cs)] r = runStack items [] (r ++ [PTree.node a cs]) := by
  cases items with
  | nil =>
    show (popCarry 0 [(d, a, cs)] none r).2 = (popCarry 0 [] none (r ++ [PTree.node a cs])).2
    conv_lhs => rw [popCarry]
    rw [if_pos (Nat.zero_le d)]
    rfl
  | cons x rest =>
    obtain ⟨d₃, a₃⟩ := x
    have hle : d₃ ≤ d := hhead d₃ a₃ rest rfl
    show runStack rest (insertItem ([(d, a, cs)], r) (d₃, a₃)).1
        (insertItem ([(d, a, cs)], r) (d₃, a₃)).2 =
      runStack rest (insertItem ([], r ++ [PTree.node a cs]) (d₃, a₃)).1
        (insertItem ([], r ++ [PTree.node a cs]) (d₃, a₃)).2
    unfold insertItem
    have hstep : popCarry d₃ [(d, a, cs)] none r =
        popCarry d₃ [] none (r ++ [PTree.node a cs]) := by
      conv_lhs => rw [popCarry]
      rw [if_pos hle]
      rfl
    rw [hstep]

theorem head_dropWhile_fails {α : Type} (p : α → Bool) (L : List α) :
    ∀ x rest, L.dropWhile p = x :: rest → p x = false := by
  intro x rest h
  have := List.head_dropWhile_not p L (by simp [h])
  simpa [h] using this

theorem takeWhile_takeWhile_imp {α : Type} {p q : α → Bool}
    (himp : ∀ x, q x = true → p x = true) (l : List α) :
    (l.takeWhile p).takeWhile q = l.takeWhile q := by
  induction l with
  | nil => simp
  | cons x xs ih =>
    by_cases hq : q x = true
    · have hp := himp x hq
      rw [List.takeWhile_cons, if_pos hp, List.takeWhile_cons, if_pos hq,
        List.takeWhile_cons, if_pos hq, ih]
    · by_cases hp : p x = true
      · rw [List.takeWhile_cons, if_pos hp, List.takeWhile_cons, if_neg hq,
          List.takeWhile_cons, if_neg hq]
      · rw [List.takeWhile_cons, if_neg hp, List.takeWhile_cons, if_neg hq]
        simp

theorem dropWhile_head_fails {α : Type} {q : α → Bool} {L : List α}
    (h : ∀ x rest, L = x :: rest → q x = false) :
    L.dropWhile q = L := by
  cases L with
  | nil => rfl
  | cons x rest =>
    rw [List.dropWhile_cons, if_neg (by simp [h x rest rfl])]

/-- Processing the items of the open entry's subtree accumulates exactly
`buildRec` of those items as its children; the run resumes at the first
item of depth `≤ d`. -/
theorem runStack_subtree :
    ∀ (n : Nat) (items : List (Nat × α)), items.length ≤ n →
      ∀ (d : Nat) (a : α) (cs : List (PTree α))
        (s : List (Nat × α × List (PTree α))) (r : List (PTree α)),
      runStack items ((d, a, cs) :: s) r =
        runStack (items.dropWhile (fun p => d < p.1))
          ((d, a, cs ++ buildRec (items.takeWhile (fun p => d < p.1))) :: s) r := by
  intro n
  induction n with
  | zero =>
    intro items hlen d a cs s r
    have : items = [] := List.length_eq_zero.1 (Nat.le_zero.1 hlen)
    subst this
    simp [buildRec]
  | succ n ih =>
    intro items hlen d a cs s r
    cases items with
    | nil => simp [buildRec]
    | cons x rest =>
      obtain ⟨d₂, a₂⟩ := x
      simp only [List.length_cons] at hlen
      by_cases hgt : d < d₂
      · -- the new item opens a deeper entry: it belongs to the subtree
        have hstep : runStack ((d₂, a₂) :: rest) ((d, a, cs) :: s) r =
            runStack rest ((d₂, a₂, []) :: (d, a, cs) :: s) r := by
          show runStack rest (insertItem ((d, a, cs) :: s, r) (d₂, a₂)).1
              (insertItem ((d, a, cs) :: s, r) (d₂, a₂)).2 = _
          unfold insertItem
          have hpop : popCarry d₂ ((d, a, cs) :: s) none r = ((d, a, cs) :: s, r) := by
            rw [popCarry]
            rw [if_neg (by omega)]
          rw [hpop]
        rw [hstep]
        rw [ih rest (by omega) d₂ a₂ [] ((d, a, cs) :: s) r]
        set sub₂ := rest.takeWhile (fun p => d₂ < p.1) with hsub₂
        set rem₂ := rest.dropWhile (fun p => d₂ < p.1) with hrem₂
        have hsub₂all : ∀ p ∈ sub₂, (fun p => decide (d₂ < p.1)) p = true := by
          intro p hp
          simpa using List.mem_takeWhile_imp hp
        have hsub₂all' : ∀ p ∈ sub₂, (fun p => decide (d < p.1)) p = true := by
          intro p hp
          have := List.mem_takeWhile_imp hp
          simp only [decide_eq_true_eq] at this ⊢
          omega
        have hrem₂head : ∀ x rest', rem₂ = x :: rest' → decide (d₂ < x.1) = false := by
          intro x rest' hx
          exact head_dropWhile_fails _ rest x rest' hx
        have hattach := runStack_pop_attach rem₂ d₂ a₂ ([] ++ buildRec sub₂) d a cs s r
          (by
            intro d₃ a₃ rest' heq
            have := hrem₂head (d₃, a₃) rest' heq
            simp only [decide_eq_false_iff_not] at this
            omega)
        simp only [List.nil_append] at hattach ⊢
        rw [hattach]
        have hlenrem : rem₂.length ≤ n := by
          have := length_dropWhile_le' (fun p => decide (d₂ < p.1)) rest
          rw [← hrem₂] at this
          omega
        rw [ih rem₂ hlenrem d a (cs ++ [PTree.node a₂ (buildRec sub₂)]) s r]
        -- now rewrite the right-hand side into the same form
        have hrest : rest = sub₂ ++ rem₂ := (List.takeWhile_append_dropWhile _ _).symm
        have f3 : ((d₂, a₂) :: rest).dropWhile (fun p => d < p.1) =
            rem₂.dropWhile (fun p => d < p.1) := by
          rw [List.dropWhile_cons, if_pos (by simpa using hgt)]
          conv_lhs => rw [hrest]
          exact dropWhile_append_all hsub₂all'
        have ftake : rest.takeWhile (fun p => d < p.1) =
            sub₂ ++ rem₂.takeWhile (fun p => d < p.1) := by
          conv_lhs => rw [hrest]
          exact takeWhile_append_all hsub₂all'
        have f1 : (rest.takeWhile (fun p => d < p.1)).takeWhile (fun p => d₂ < p.1) =
            sub₂ := by
          rw [takeWhile_takeWhile_imp]
          intro x hx
          simp only [decide_eq_true_eq] at hx ⊢
          omega
        have f2 : (rest.takeWhile (fun p => d < p.1)).dropWhile (fun p => d₂ < p.1) =
            rem₂.takeWhile (fun p => d < p.1) := by
          rw [ftake, dropWhile_append_all hsub₂all]
          apply dropWhile_head_fails
          intro x rest' hx
          cases hr : rem₂ with
          | nil => rw [hr] at hx; simp at hx
          | cons y ys =>
            rw [hr, List.takeWhile_cons] at hx
            by_cases hd : decide (d < y.1) = true
            · rw [if_pos hd] at hx
              injection hx with h1 _
              rw [← h1]
              exact hrem₂head y ys (by rw [hr])
            · rw [if_neg hd] at hx
              exact absurd hx (by simp)
        conv_rhs =>
          rw [f3, List.takeWhile_cons, if_pos (by simpa using hgt), buildRec,
            f1, f2]
        rw [show cs ++ (PTree.node a₂ (buildRec sub₂) ::
            buildRec (rem₂.takeWhile (fun p => d < p.1))) =
          (cs ++ [PTree.node a₂ (buildRec sub₂)]) ++
            buildRec (rem₂.takeWhile (fun p => d < p.1)) by
          simp [List.append_assoc]]
      · rw [List.dropWhile_cons, if_neg (by simpa using hgt), List.takeWhile_cons,
          if_neg (by simpa using hgt)]
        simp [buildRec]

theorem runStack_eq_buildRec :
    ∀ (n : Nat) (items : List (Nat × α)), items.length ≤ n →
      ∀ r : List (PTree α), runStack items [] r = r ++ buildRec items := by
  intro n
  induction n with
  | zero =>
    intro items hlen r
    have : items = [] := List.length_eq_zero.1 (Nat.le_zero.1 hlen)
    subst this
    simp [buildRec, runStack, popCarry]
  | succ n ih =>
    intro items hlen r
    cases items with
    | nil => simp [buildRec, runStack, popCarry]
    | cons x rest =>
      obtain ⟨d, a⟩ := x
      simp only [List.length_cons] at hlen
      have hstep : runStack ((d, a) :: rest) [] r = runStack rest [(d, a, [])] r := by
        show runStack rest (insertItem ([], r) (d, a)).1 (insertItem ([], r) (d, a)).2 = _
        unfold insertItem
        rw [popCarry]
      rw [hstep]
      rw [runStack_subtree rest.length rest (le_refl _) d a [] [] r]
      set sub := rest.takeWhile (fun p => d < p.1) with hsubdef
      set rem := rest.dropWhile (fun p => d < p.1) with hremdef
      have hroot := runStack_pop_root rem d a ([] ++ buildRec sub) r
        (by
          intro d₃ a₃ rest' heq
          have := head_dropWhile_fails (fun p => decide (d < p.1)) rest (d₃, a₃) rest'
            (by rw [← hremdef]; exact heq)
          simp only [decide_eq_false_iff_not] at this
          omega)
      simp only [List.nil_append] at hroot ⊢
      rw [hroot]
      have hlenrem : rem.length ≤ n := by
        have := length_dropWhile_le' (fun p => decide (d < p.1)) rest
        rw [← hremdef] at this
        omega
      rw [ih rem hlenrem (r ++ [PTree.node a (buildRec sub)])]
      conv_rhs => rw [buildRec]
      simp [List.append_assoc]

theorem buildFromItems_eq_buildRec (items : List (Nat × α)) :
    buildFromItems items = buildRec items := by
  rw [buildFromItems_eq_runStack]
  simpa using runStack_eq_buildRec items.length items (le_refl _) []

/-! ## Positional characterisation of the depth-stack forest

To state the parent/child invariant of the claim we decorate every
qualifying line with its position in the item sequence (`tagF`), build the
forest from the decorated items, and characterise the decorated forest's
roots and parent/child pairs purely in terms of positions and depths.
`mapF` erases the decoration back onto the forest the decoders actually
produce. -/

/-- Preorder traversal of a forest: every payload, parents before their
subtrees, in left-to-right order. -/
def preF : List (PTree α) → List α
  | [] => []
  | .node a cs :: rest => a :: (preF cs ++ preF rest)

/-- Map a function over every payload of a forest. -/
def mapF (f : α → β) : List (PTree α) → List (PTree β)
  | [] => []
  | .node a cs :: rest => .node (f a) (mapF f cs) :: mapF f rest

/-- Every (parent payload, child payload) pair of a forest. -/
def childPairsF : List (PTree α) → List (α × α)
  | [] => []
  | .node a cs :: rest =>
    cs.map (fun t => (a, t.val)) ++ (childPairsF cs ++ childPairsF rest)

/-- Decorate each `(depth, payload)` item with its position, the head
taking position `n`: the result's entries are `(depth, position, payload)`. -/
def tagF (n : Nat) : List (Nat × α) → List (Nat × Nat × α)
  | [] => []
  | (d, a) :: rest => (d, n, a) :: tagF (n + 1) rest

theorem tagF_append (u v : List (Nat × α)) :
    ∀ n, tagF n (u ++ v) = tagF n u ++ tagF (n + u.length) v := by
  induction u with
  | nil => intro n; simp [tagF]
  | cons hd tl ih =>
    intro n
    obtain ⟨d, a⟩ := hd
    rw [List.cons_append]
    show (d, n, a) :: tagF (n + 1) (tl ++ v) = ((d, n, a) :: tagF (n + 1) tl) ++ _
    rw [ih (n + 1), List.cons_append]
    have harith : n + 1 + tl.length = n + ((d, a) :: tl).length := by
      simp only [List.length_cons]; omega
    rw [harith]

theorem tagF_takeWhile (d : Nat) (l : List (Nat × α)) :
    ∀ n, (tagF n l).takeWhile (fun p => d < p.1) =
      tagF n (l.takeWhile (fun p => d < p.1)) := by
  induction l with
  | nil => intro n; simp [tagF]
  | cons hd tl ih =>
    intro n
    obtain ⟨d', a⟩ := hd
    show ((d', n, a) :: tagF (n + 1) tl).takeWhile (fun p => d < p.1) = _
    rw [List.takeWhile_cons, List.takeWhile_cons]
    by_cases h : d < d'
    · rw [if_pos (by simpa using h), if_pos (by simpa using h)]
      show _ = (d', n, a) :: tagF (n + 1) (tl.takeWhile (fun p => d < p.1))
      rw [ih (n + 1)]
    · rw [if_neg (by simpa using h), if_neg (by simpa using h)]
      rfl

theorem tagF_dropWhile (d : Nat) (l : List (Nat × α)) :
    ∀ n, (tagF n l).dropWhile (fun p => d < p.1) =
      tagF (n + (l.takeWhile (fun p => d < p.1)).length)
        (l.dropWhile (fun p => d < p.1)) := by
  induction l with
  | nil => intro n; simp [tagF]
  | cons hd tl ih =>
    intro n
    obtain ⟨d', a⟩ := hd
    show ((d', n, a) :: tagF (n + 1) tl).dropWhile (fun p => d < p.1) = _
    by_cases h : d < d'
    · rw [List.dropWhile_cons, if_pos (by simpa using h),
        List.takeWhile_cons, if_pos (by simpa using h),
        List.dropWhile_cons, if_pos (by simpa using h)]
      rw [ih (n + 1)]
      have harith : n + 1 + (tl.takeWhile (fun p => d < p.1)).length =
          n + ((d', a) :: tl.takeWhile (fun p => d < p.1)).length := by
        simp only [List.length_cons]; omega
      rw [harith]
    · rw [List.dropWhile_cons, if_neg (by simpa using h),
        List.takeWhile_cons, if_neg (by simpa using h),
        List.dropWhile_cons, if_neg (by simpa using h)]
      simp [tagF]

theorem tagF_mem_ge (l : List (Nat × α)) :
    ∀ n e, e ∈ tagF n l → n ≤ e.2.1 := by
  induction l with
  | nil => intro n e he; simp [tagF] at he
  | cons hd tl ih =>
    intro n e he
    obtain ⟨d, a⟩ := hd
    rcases List.mem_cons.1 he with h | h
    · subst h; exact le_refl n
    · have := ih (n + 1) e h; omega

theorem tagF_mem_lt (l : List (Nat × α)) :
    ∀ n e, e ∈ tagF n l → e.2.1 < n + l.length := by
  induction l with
  | nil => intro n e he; simp [tagF] at he
  | cons hd tl ih =>
    intro n e he
    obtain ⟨d, a⟩ := hd
    simp only [List.length_cons]
    rcases List.mem_cons.1 he with h | h
    · subst h; dsimp only; omega
    · have := ih (n + 1) e h; omega

/-- A decorated entry projects back to a member of the original list. -/
theorem tagF_mem_proj (l : List (Nat × α)) :
    ∀ n e, e ∈ tagF n l → (e.1, e.2.2) ∈ l := by
  induction l with
  | nil => intro n e he; simp [tagF] at he
  | cons hd tl ih =>
    intro n e he
    obtain ⟨d, a⟩ := hd
    rcases List.mem_cons.1 he with h | h
    · subst h; exact List.mem_cons_self _ _
    · exact List.mem_cons_of_mem _ (ih (n + 1) e h)

/-- Positions are unique among the decorated entries. -/
theorem tagF_idx_unique (l : List (Nat × α)) :
    ∀ n e e', e ∈ tagF n l → e' ∈ tagF n l → e.2.1 = e'.2.1 → e = e' := by
  induction l with
  | nil => intro n e e' he; simp [tagF] at he
  | cons hd tl ih =>
    intro n e e' he he' hidx
    obtain ⟨d, a⟩ := hd
    rcases List.mem_cons.1 he with h | h <;> rcases List.mem_cons.1 he' with h' | h'
    · rw [h, h']
    · exfalso
      have hge := tagF_mem_ge tl (n + 1) e' h'
      rw [h] at hidx
      dsimp only at hidx
      omega
    · exfalso
      have hge := tagF_mem_ge tl (n + 1) e h
      rw [h'] at hidx
      dsimp only at hidx
      omega
    · exact ih (n + 1) e e' h h' hidx

/-- Stripping the position decoration recovers the original items. -/
theorem tagF_map_proj (l : List (Nat × α)) :
    ∀ n, (tagF n l).map (fun p => (p.1, p.2.2)) = l := by
  induction l with
  | nil => intro n; simp [tagF]
  | cons hd tl ih =>
    intro n
    obtain ⟨d, a⟩ := hd
    show (d, a) :: (tagF (n + 1) tl).map (fun p => (p.1, p.2.2)) = _
    rw [ih (n + 1)]

/-- Position `i` (payload `x`) is a root line of the decorated items: it
occurs among them and no earlier line is strictly shallower. -/
def isRootSpec (tl : List (Nat × Nat × α)) (i : Nat) (x : α) : Prop :=
  ∃ di, (di, i, x) ∈ tl ∧ ∀ e ∈ tl, e.2.1 < i → di ≤ e.1

/-- Line `i` is the parent of line `j` among the decorated items: both
occur, `i` precedes `j` and is strictly shallower, and every line strictly
between them is at least as deep as `j` — that is, `i` is the nearest
preceding line strictly shallower than `j`. -/
def isChildSpec (tl : List (Nat × Nat × α)) (i : Nat) (x : α)
    (j : Nat) (y : α) : Prop :=
  ∃ di dj, (di, i, x) ∈ tl ∧ (dj, j, y) ∈ tl ∧ i < j ∧ di < dj ∧
    ∀ e ∈ tl, i < e.2.1 → e.2.1 < j → dj ≤ e.1

/-- Preorder traversal of the forest lists every qualifying line exactly
once, in source order. -/
theorem preF_buildRec :
    ∀ (fuel : Nat) (l : List (Nat × α)), l.length ≤ fuel →
      preF (buildRec l) = l.map (fun p => p.2) := by
  intro fuel
  induction fuel with
  | zero =>
    intro l hl
    have : l = [] := List.length_eq_zero.1 (Nat.le_zero.1 hl)
    subst this
    simp [buildRec, preF]
  | succ f ih =>
    intro l hl
    cases l with
    | nil => simp [buildRec, preF]
    | cons hd rest =>
      obtain ⟨d, a⟩ := hd
      simp only [List.length_cons] at hl
      rw [buildRec, preF]
      rw [ih (rest.takeWhile (fun p => d < p.1))
        (by have := length_takeWhile_le' (fun p => decide (d < p.1)) rest; omega)]
      rw [ih (rest.dropWhile (fun p => d < p.1))
        (by have := length_dropWhile_le' (fun p => decide (d < p.1)) rest; omega)]
      rw [← List.map_append, List.takeWhile_append_dropWhile]
      rfl

/-- The forest's roots are exactly the decorated lines with no strictly
shallower predecessor. -/
theorem buildRec_roots :
    ∀ (fuel : Nat) (l : List (Nat × α)), l.length ≤ fuel → ∀ (n i : Nat) (x : α),
      ((i, x) ∈ (buildRec (tagF n l)).map PTree.val ↔ isRootSpec (tagF n l) i x) := by
  intro fuel
  induction fuel with
  | zero =>
    intro l hl n i x
    have : l = [] := List.length_eq_zero.1 (Nat.le_zero.1 hl)
    subst this
    simp [tagF, buildRec, isRootSpec]
  | succ f ih =>
    intro l hl n i x
    cases l with
    | nil => simp [tagF, buildRec, isRootSpec]
    | cons hd rest =>
      obtain ⟨d, a⟩ := hd
      simp only [List.length_cons] at hl
      set t := rest.takeWhile (fun p => d < p.1) with htdef
      set r := rest.dropWhile (fun p => d < p.1) with hrdef
      have htagcons : tagF n ((d, a) :: rest) = (d, n, a) :: tagF (n + 1) rest := rfl
      have htagsplit : tagF (n + 1) rest =
          tagF (n + 1) t ++ tagF (n + 1 + t.length) r := by
        conv_lhs => rw [show rest = t ++ r from (List.takeWhile_append_dropWhile _ _).symm]
        rw [tagF_append]
      have hbuild : buildRec (tagF n ((d, a) :: rest)) =
          PTree.node (n, a) (buildRec (tagF (n + 1) t)) ::
            buildRec (tagF (n + 1 + t.length) r) := by
        rw [htagcons, buildRec, tagF_takeWhile, tagF_dropWhile]
      have hrlen : r.length ≤ f := by
        have := length_dropWhile_le' (fun p => decide (d < p.1)) rest
        rw [← hrdef] at this
        omega
      rw [hbuild, htagcons, htagsplit]
      simp only [List.map_cons, List.mem_cons, PTree.val]
      rw [ih r hrlen (n + 1 + t.length) i x]
      constructor
      · rintro (heq | hroot)
        · have hi : i = n := congrArg Prod.fst heq
          have hx : x = a := congrArg Prod.snd heq
          refine ⟨d, by rw [hi, hx]; exact List.mem_cons_self _ _, ?_⟩
          intro e he hlt
          exfalso
          rw [hi] at hlt
          rcases List.mem_cons.1 he with he' | he'
          · rw [he'] at hlt; dsimp only at hlt; omega
          · rw [← htagsplit] at he'
            have := tagF_mem_ge rest (n + 1) e he'
            omega
        · obtain ⟨di, hmem, hcond⟩ := hroot
          have hdi_le : di ≤ d := by
            cases hr0 : r with
            | nil => rw [hr0] at hmem; simp [tagF] at hmem
            | cons e0 r' =>
              obtain ⟨dr, pr⟩ := e0
              have hdr_le : ¬ d < dr := by
                have := head_dropWhile_fails (fun p => decide (d < p.1)) rest
                  (dr, pr) r' (by rw [← hrdef, hr0])
                simpa using this
              rw [hr0] at hmem
              rcases List.mem_cons.1 hmem with hh | hh
              · have h1 : di = dr := congrArg Prod.fst hh
                omega
              · have hcd := hcond (dr, n + 1 + t.length, pr)
                  (by rw [hr0]; exact List.mem_cons_self _ _)
                  (by
                    dsimp only
                    have := tagF_mem_ge r' (n + 1 + t.length + 1) (di, i, x) hh
                    dsimp only at this
                    omega)
                dsimp only at hcd
                omega
          refine ⟨di, List.mem_cons_of_mem _ (List.mem_append_right _ hmem), ?_⟩
          intro e he hlt
          rcases List.mem_cons.1 he with he' | he'
          · rw [he']; dsimp only; exact hdi_le
          · rcases List.mem_append.1 he' with ht' | hr'
            · have hp := tagF_mem_proj t (n + 1) e ht'
              rw [htdef] at hp
              have := List.mem_takeWhile_imp hp
              simp only [decide_eq_true_eq] at this
              omega
            · exact hcond e hr' hlt
      · rintro ⟨di, hmem, hcond⟩
        rcases List.mem_cons.1 hmem with hh | hh
        · left
          have h2 : (i, x) = (n, a) := congrArg Prod.snd hh
          exact h2
        · rcases List.mem_append.1 hh with ht' | hr'
          · exfalso
            have hp := tagF_mem_proj t (n + 1) (di, i, x) ht'
            rw [htdef] at hp
            have hdgt := List.mem_takeWhile_imp hp
            simp only [decide_eq_true_eq] at hdgt
            have hge : n + 1 ≤ i := by
              have := tagF_mem_ge t (n + 1) (di, i, x) ht'
              dsimp only at this
              omega
            have hhd := hcond (d, n, a) (List.mem_cons_self _ _) (by dsimp only; omega)
            dsimp only at hhd
            omega
          · right
            exact ⟨di, hr',
              fun e he hlt => hcond e (List.mem_cons_of_mem _ (List.mem_append_right _ he)) hlt⟩

theorem tagF_mem_ge' (l : List (Nat × α)) (n dk k : Nat) (z : α)
    (h : (dk, k, z) ∈ tagF n l) : n ≤ k := by
  have := tagF_mem_ge l n (dk, k, z) h
  simpa using this

theorem tagF_mem_lt' (l : List (Nat × α)) (n dk k : Nat) (z : α)
    (h : (dk, k, z) ∈ tagF n l) : k < n + l.length := by
  have := tagF_mem_lt l n (dk, k, z) h
  simpa using this

/-- A decorated entry of the taken (strictly deeper) segment is strictly
deeper than the pivot depth. -/
theorem tagF_mem_depth_take (d : Nat) (rest : List (Nat × α)) (n dk k : Nat) (z : α)
    (h : (dk, k, z) ∈ tagF n (rest.takeWhile (fun p => d < p.1))) : d < dk := by
  have hp := tagF_mem_proj _ n _ h
  have := List.mem_takeWhile_imp hp
  simpa using this

/-- The forest's parent/child pairs are exactly the pairs (nearest
preceding strictly shallower line, line). -/
theorem buildRec_children :
    ∀ (fuel : Nat) (l : List (Nat × α)), l.length ≤ fuel →
      ∀ (n i : Nat) (x : α) (j : Nat) (y : α),
        (((i, x), (j, y)) ∈ childPairsF (buildRec (tagF n l)) ↔
          isChildSpec (tagF n l) i x j y) := by
  intro fuel
  induction fuel with
  | zero =>
    intro l hl n i x j y
    have : l = [] := List.length_eq_zero.1 (Nat.le_zero.1 hl)
    subst this
    simp [tagF, buildRec, childPairsF, isChildSpec]
  | succ f ih =>
    intro l hl n i x j y
    cases l with
    | nil => simp [tagF, buildRec, childPairsF, isChildSpec]
    | cons hd rest =>
      obtain ⟨d, a⟩ := hd
      simp only [List.length_cons] at hl
      set t := rest.takeWhile (fun p => d < p.1) with htdef
      set r := rest.dropWhile (fun p => d < p.1) with hrdef
      have htagcons : tagF n ((d, a) :: rest) = (d, n, a) :: tagF (n + 1) rest := rfl
      have htagsplit : tagF (n + 1) rest =
          tagF (n + 1) t ++ tagF (n + 1 + t.length) r := by
        conv_lhs => rw [show rest = t ++ r from (List.takeWhile_append_dropWhile _ _).symm]
        rw [tagF_append]
      have hbuild : buildRec (tagF n ((d, a) :: rest)) =
          PTree.node (n, a) (buildRec (tagF (n + 1) t)) ::
            buildRec (tagF (n + 1 + t.length) r) := by
        rw [htagcons, buildRec, tagF_takeWhile, tagF_dropWhile]
      have htlen : t.length ≤ f := by
        have := length_takeWhile_le' (fun p => decide (d < p.1)) rest
        rw [← htdef] at this
        omega
      have hrlen : r.length ≤ f := by
        have := length_dropWhile_le' (fun p => decide (d < p.1)) rest
        rw [← hrdef] at this
        omega
      rw [hbuild, htagcons, htagsplit, childPairsF]
      rw [List.mem_append, List.mem_append]
      rw [ih t htlen (n + 1) i x j y, ih r hrlen (n + 1 + t.length) i x j y]
      have hfirst : (((i, x), (j, y)) ∈
            (buildRec (tagF (n + 1) t)).map (fun t' => ((n, a), t'.val))) ↔
          ((i, x) = (n, a) ∧ isRootSpec (tagF (n + 1) t) j y) := by
        rw [List.mem_map]
        constructor
        · rintro ⟨t', ht', heq⟩
          have h1 : ((n : Nat), a) = (i, x) := congrArg Prod.fst heq
          have h2 : t'.val = (j, y) := congrArg Prod.snd heq
          refine ⟨h1.symm, ?_⟩
          rw [← buildRec_roots t.length t (le_refl _) (n + 1) j y, List.mem_map]
          exact ⟨t', ht', h2⟩
        · rintro ⟨heq, hroot⟩
          rw [← buildRec_roots t.length t (le_refl _) (n + 1) j y, List.mem_map] at hroot
          obtain ⟨t', ht', hv⟩ := hroot
          refine ⟨t', ht', ?_⟩
          rw [hv, ← heq]
      rw [hfirst]
      constructor
      · rintro (⟨heq, hroot⟩ | hsub | hrest)
        · obtain ⟨dj, hjm, hjcond⟩ := hroot
          have hi : i = n := congrArg Prod.fst heq
          have hx : x = a := congrArg Prod.snd heq
          have hjge : n + 1 ≤ j := tagF_mem_ge' t (n + 1) dj j y hjm
          have hjlt : j < n + 1 + t.length := tagF_mem_lt' t (n + 1) dj j y hjm
          have hdj : d < dj := by
            rw [htdef] at hjm
            exact tagF_mem_depth_take d rest (n + 1) dj j y hjm
          refine ⟨d, dj, by rw [hi, hx]; exact List.mem_cons_self _ _,
            List.mem_cons_of_mem _ (List.mem_append_left _ hjm), by omega, hdj, ?_⟩
          intro e he h1 h2
          rcases List.mem_cons.1 he with he' | he'
          · exfalso
            rw [he'] at h1
            dsimp only at h1
            omega
          · rcases List.mem_append.1 he' with ht' | hr'
            · exact hjcond e ht' h2
            · exfalso
              have := tagF_mem_ge r (n + 1 + t.length) e hr'
              omega
        · obtain ⟨di, dj, him, hjm, hij, hdd, hcnd⟩ := hsub
          have hige : n + 1 ≤ i := tagF_mem_ge' t (n + 1) di i x him
          have hjlt : j < n + 1 + t.length := tagF_mem_lt' t (n + 1) dj j y hjm
          refine ⟨di, dj, List.mem_cons_of_mem _ (List.mem_append_left _ him),
            List.mem_cons_of_mem _ (List.mem_append_left _ hjm), hij, hdd, ?_⟩
          intro e he h1 h2
          rcases List.mem_cons.1 he with he' | he'
          · exfalso
            rw [he'] at h1
            dsimp only at h1
            omega
          · rcases List.mem_append.1 he' with ht' | hr'
            · exact hcnd e ht' h1 h2
            · exfalso
              have := tagF_mem_ge r (n + 1 + t.length) e hr'
              omega
        · obtain ⟨di, dj, him, hjm, hij, hdd, hcnd⟩ := hrest
          have hige : n + 1 + t.length ≤ i := tagF_mem_ge' r (n + 1 + t.length) di i x him
          refine ⟨di, dj, List.mem_cons_of_mem _ (List.mem_append_right _ him),
            List.mem_cons_of_mem _ (List.mem_append_right _ hjm), hij, hdd, ?_⟩
          intro e he h1 h2
          rcases List.mem_cons.1 he with he' | he'
          · exfalso
            rw [he'] at h1
            dsimp only at h1
            omega
          · rcases List.mem_append.1 he' with ht' | hr'
            · exfalso
              have := tagF_mem_lt t (n + 1) e ht'
              omega
            · exact hcnd e hr' h1 h2
      · rintro ⟨di, dj, him, hjm, hij, hdd, hcond⟩
        rcases List.mem_cons.1 him with hih | hih
        · have hdi : di = d := congrArg Prod.fst hih
          have hi : i = n := congrArg (fun p => p.2.1) hih
          have hx : x = a := congrArg (fun p => p.2.2) hih
          rcases List.mem_cons.1 hjm with hjh | hjh
          · exfalso
            have hj : j = n := congrArg (fun p => p.2.1) hjh
            omega
          · rcases List.mem_append.1 hjh with ht' | hr'
            · left
              refine ⟨by rw [hi, hx], dj, ht', ?_⟩
              intro e he hlt
              have hege : n + 1 ≤ e.2.1 := by
                have := tagF_mem_ge t (n + 1) e he
                omega
              exact hcond e (List.mem_cons_of_mem _ (List.mem_append_left _ he))
                (by omega) hlt
            · exfalso
              cases hr0 : r with
              | nil => rw [hr0] at hr'; simp [tagF] at hr'
              | cons e0 r' =>
                obtain ⟨dr, pr⟩ := e0
                have hdr_le : ¬ d < dr := by
                  have := head_dropWhile_fails (fun p => decide (d < p.1)) rest
                    (dr, pr) r' (by rw [← hrdef, hr0])
                  simpa using this
                rw [hr0] at hr'
                rcases List.mem_cons.1 hr' with hjh2 | hjh2
                · have : dj = dr := congrArg Prod.fst hjh2
                  omega
                · have hjgt : n + 1 + t.length + 1 ≤ j :=
                    tagF_mem_ge' r' (n + 1 + t.length + 1) dj j y hjh2
                  have hcd := hcond (dr, n + 1 + t.length, pr)
                    (List.mem_cons_of_mem _ (List.mem_append_right _
                      (by rw [hr0]; exact List.mem_cons_self _ _)))
                    (by dsimp only; omega) (by dsimp only; omega)
                  dsimp only at hcd
                  omega
        · rcases List.mem_append.1 hih with hit | hir
          · have hige : n + 1 ≤ i := tagF_mem_ge' t (n + 1) di i x hit
            have hilt : i < n + 1 + t.length := tagF_mem_lt' t (n + 1) di i x hit
            have hdi_gt : d < di := by
              rw [htdef] at hit
              exact tagF_mem_depth_take d rest (n + 1) di i x hit
            rcases List.mem_cons.1 hjm with hjh | hjh
            · exfalso
              have hj : j = n := congrArg (fun p => p.2.1) hjh
              omega
            · rcases List.mem_append.1 hjh with hjt | hjr
              · right; left
                refine ⟨di, dj, hit, hjt, hij, hdd, ?_⟩
                intro e he h1 h2
                exact hcond e (List.mem_cons_of_mem _ (List.mem_append_left _ he)) h1 h2
              · exfalso
                cases hr0 : r with
                | nil => rw [hr0] at hjr; simp [tagF] at hjr
                | cons e0 r' =>
                  obtain ⟨dr, pr⟩ := e0
                  have hdr_le : ¬ d < dr := by
                    have := head_dropWhile_fails (fun p => decide (d < p.1)) rest
                      (dr, pr) r' (by rw [← hrdef, hr0])
                    simpa using this
                  rw [hr0] at hjr
                  rcases List.mem_cons.1 hjr with hjh2 | hjh2
                  · have h1 : dj = dr := congrArg Prod.fst hjh2
                    have h2 : j = n + 1 + t.length := congrArg (fun p => p.2.1) hjh2
                    omega
                  · have hjgt : n + 1 + t.length + 1 ≤ j :=
                      tagF_mem_ge' r' (n + 1 + t.length + 1) dj j y hjh2
                    have hcd := hcond (dr, n + 1 + t.length, pr)
                      (List.mem_cons_of_mem _ (List.mem_append_right _
                        (by rw [hr0]; exact List.mem_cons_self _ _)))
                      (by dsimp only; omega) (by dsimp only; omega)
                    dsimp only at hcd
                    omega
          · have hige : n + 1 + t.length ≤ i := tagF_mem_ge' r (n + 1 + t.length) di i x hir
            rcases List.mem_cons.1 hjm with hjh | hjh
            · exfalso
              have hj : j = n := congrArg (fun p => p.2.1) hjh
              omega
            · rcases List.mem_append.1 hjh with hjt | hjr
              · exfalso
                have := tagF_mem_lt' t (n + 1) dj j y hjt
                omega
              · right; right
                refine ⟨di, dj, hir, hjr, hij, hdd, ?_⟩
                intro e he h1 h2
                exact hcond e (List.mem_cons_of_mem _ (List.mem_append_right _ he)) h1 h2

/-- Every decorated line appears in the forest either as a root or as
somebody's child. -/
theorem buildRec_mem_root_or_child :
    ∀ (fuel : Nat) (l : List (Nat × α)), l.length ≤ fuel →
      ∀ (n di i : Nat) (x : α), (di, i, x) ∈ tagF n l →
        ((i, x) ∈ (buildRec (tagF n l)).map PTree.val ∨
          ∃ p, (p, (i, x)) ∈ childPairsF (buildRec (tagF n l))) := by
  intro fuel
  induction fuel with
  | zero =>
    intro l hl n di i x hmem
    have : l = [] := List.length_eq_zero.1 (Nat.le_zero.1 hl)
    subst this
    simp [tagF] at hmem
  | succ f ih =>
    intro l hl n di i x hmem
    cases l with
    | nil => simp [tagF] at hmem
    | cons hd rest =>
      obtain ⟨d, a⟩ := hd
      simp only [List.length_cons] at hl
      set t := rest.takeWhile (fun p => d < p.1) with htdef
      set r := rest.dropWhile (fun p => d < p.1) with hrdef
      have htagcons : tagF n ((d, a) :: rest) = (d, n, a) :: tagF (n + 1) rest := rfl
      have htagsplit : tagF (n + 1) rest =
          tagF (n + 1) t ++ tagF (n + 1 + t.length) r := by
        conv_lhs => rw [show rest = t ++ r from (List.takeWhile_append_dropWhile _ _).symm]
        rw [tagF_append]
      have hbuild : buildRec (tagF n ((d, a) :: rest)) =
          PTree.node (n, a) (buildRec (tagF (n + 1) t)) ::
            buildRec (tagF (n + 1 + t.length) r) := by
        rw [htagcons, buildRec, tagF_takeWhile, tagF_dropWhile]
      have htlen : t.length ≤ f := by
        have := length_takeWhile_le' (fun p => decide (d < p.1)) rest
        rw [← htdef] at this
        omega
      have hrlen : r.length ≤ f := by
        have := length_dropWhile_le' (fun p => decide (d < p.1)) rest
        rw [← hrdef] at this
        omega
      rw [htagcons, htagsplit] at hmem
      rw [hbuild, childPairsF]
      simp only [List.map_cons, List.mem_cons, List.mem_append]
      rcases List.mem_cons.1 hmem with hh | hh
      · left; left
        have h2 : (i, x) = (n, a) := congrArg Prod.snd hh
        rw [h2]
        simp [PTree.val]
      · rcases List.mem_append.1 hh with ht' | hr'
        · rcases ih t htlen (n + 1) di i x ht' with hroot | ⟨p, hp⟩
          · right
            refine ⟨(n, a), Or.inl ?_⟩
            rw [List.mem_map] at hroot ⊢
            obtain ⟨t', htmem, hv⟩ := hroot
            exact ⟨t', htmem, by rw [hv]⟩
          · exact Or.inr ⟨p, Or.inr (Or.inl hp)⟩
        · rcases ih r hrlen (n + 1 + t.length) di i x hr' with hroot | ⟨p, hp⟩
          · exact Or.inl (Or.inr hroot)
          · exact Or.inr ⟨p, Or.inr (Or.inr hp)⟩

/-- Two equal-depth lines with every intervening line strictly deeper are
siblings: both roots, or children of one common parent. -/
theorem buildRec_sibling (l : List (Nat × α)) (n di dj i j : Nat) (x y : α)
    (him : (di, i, x) ∈ tagF n l) (hjm : (dj, j, y) ∈ tagF n l)
    (hij : i < j) (hdep : di = dj)
    (hbetween : ∀ e ∈ tagF n l, i < e.2.1 → e.2.1 < j → di < e.1) :
    ((i, x) ∈ (buildRec (tagF n l)).map PTree.val ∧
      (j, y) ∈ (buildRec (tagF n l)).map PTree.val) ∨
    ∃ p, (p, (i, x)) ∈ childPairsF (buildRec (tagF n l)) ∧
      (p, (j, y)) ∈ childPairsF (buildRec (tagF n l)) := by
  rcases buildRec_mem_root_or_child l.length l (le_refl _) n di i x him with hroot | ⟨p, hp⟩
  · left
    refine ⟨hroot, ?_⟩
    have hi_spec := (buildRec_roots l.length l (le_refl _) n i x).1 hroot
    obtain ⟨di', him', hicond⟩ := hi_spec
    have hdi' : di' = di := by
      have := tagF_idx_unique l n (di', i, x) (di, i, x) him' him rfl
      exact congrArg Prod.fst this
    rw [buildRec_roots l.length l (le_refl _) n j y]
    refine ⟨dj, hjm, ?_⟩
    intro e he hlt
    by_cases hei : e.2.1 < i
    · have := hicond e he hei
      omega
    · by_cases heq : e.2.1 = i
      · have : e = (di, i, x) := tagF_idx_unique l n e (di, i, x) he him heq
        rw [this]
        dsimp only
        omega
      · have := hbetween e he (by omega) hlt
        omega
  · right
    refine ⟨p, hp, ?_⟩
    obtain ⟨pi, px⟩ := p
    have hspec := (buildRec_children l.length l (le_refl _) n pi px i x).1 hp
    obtain ⟨dp, di', hpm, him', hpi, hpd, hpcond⟩ := hspec
    have hdieq : di' = di := by
      have := tagF_idx_unique l n (di', i, x) (di, i, x) him' him rfl
      exact congrArg Prod.fst this
    rw [buildRec_children l.length l (le_refl _) n pi px j y]
    refine ⟨dp, dj, hpm, hjm, by omega, by omega, ?_⟩
    intro e he h1 h2
    by_cases hei : e.2.1 < i
    · have := hpcond e he h1 hei
      omega
    · by_cases heq : e.2.1 = i
      · have : e = (di, i, x) := tagF_idx_unique l n e (di, i, x) he him heq
        rw [this]
        dsimp only
        omega
      · have := hbetween e he (by omega) h2
        omega

theorem mapF_buildRec :
    ∀ (fuel : Nat) (l : List (Nat × α)), l.length ≤ fuel → ∀ (g : α → β),
      mapF g (buildRec l) = buildRec (l.map (fun p => (p.1, g p.2))) := by
  intro fuel
  induction fuel with
  | zero =>
    intro l hl g
    have : l = [] := List.length_eq_zero.1 (Nat.le_zero.1 hl)
    subst this
    simp [buildRec, mapF]
  | succ f ih =>
    intro l hl g
    cases l with
    | nil => simp [buildRec, mapF]
    | cons hd rest =>
      obtain ⟨d, a⟩ := hd
      simp only [List.length_cons] at hl
      rw [List.map_cons]
      conv_lhs => rw [buildRec]
      rw [mapF]
      conv_rhs => rw [buildRec]
      rw [List.takeWhile_map, List.dropWhile_map]
      have hpred : ((fun p : Nat × β => decide (d < p.1)) ∘
          fun p : Nat × α => (p.1, g p.2)) = fun p : Nat × α => decide (d < p.1) := by
        funext p
        rfl
      rw [hpred]
      rw [ih (rest.takeWhile (fun p => d < p.1))
        (by have := length_takeWhile_le' (fun p => decide (d < p.1)) rest; omega) g]
      rw [ih (rest.dropWhile (fun p => d < p.1))
        (by have := length_dropWhile_le' (fun p => decide (d < p.1)) rest; omega) g]

/-- Erasing the position decoration from the decorated forest yields the
forest the decoders build. -/
theorem buildFromItems_erase (items : List (Nat × α)) :
    mapF (fun p => p.2) (buildFromItems (tagF 0 items)) = buildFromItems items := by
  rw [buildFromItems_eq_buildRec, buildFromItems_eq_buildRec]
  rw [mapF_buildRec (tagF 0 items).length (tagF 0 items) (le_refl _) (fun p => p.2)]
  show buildRec ((tagF 0 items).map (fun p => (p.1, p.2.2))) = buildRec items
  rw [tagF_map_proj items 0]

/-- The tree of a successfully decoded scope block is the depth-stack
forest of its qualifying lines. -/
theorem decodeScope_tree (content : List String) (as : List ScopeAssertion)
    (tree : List ScopeNode) (h : decodeScope content = .ok (.scope as tree)) :
    tree = buildFromItems (scopeItemsOf content) := by
  have hst := scopeStep_foldl content [] ([], [])
  simp only [decodeScope, hst] at h
  split at h
  · exact absurd h (by simp)
  · injection h with h'
    injection h' with h1 h2
    rw [← h2]
    rfl

/-- The symbols decoder always returns the depth-stack forest of its
qualifying lines. -/
theorem decodeSymbols_tree (content : List String) :
    decodeSymbols content = .symbols (buildFromItems (symItemsOf content)) := by
  simp only [decodeSymbols]
  rw [symStep_foldl content ([], [])]
  rfl

/-- C6 fails as stated.  First part (children clause): on the depth
sequence 0, 1, 2 the clause "a node's children are exactly the subsequent
qualifying lines with depth strictly greater than the node's depth, up to
the next qualifying line with depth ≤ the node's" lists both later lines
as children of the first node, but the builder gives the first node
exactly one child (the depth-1 line; the depth-2 line is its grandchild).
Second part (sibling clause): on the depth sequence 0, 2, 0, 2 lines 1 and
3 have equal depth and line 1 is the nearest preceding equal-depth line of
line 3, yet they are attached to different parents (lines 0 and 2), so
they are not siblings. -/
theorem C6_counterexample :
    buildFromItems [((0 : Nat), (0 : Nat)), (1, 1), (2, 2)] =
      [PTree.node 0 [PTree.node 1 [PTree.node 2 []]]] ∧
    (([((1 : Nat), (1 : Nat)), (2, 2)]).takeWhile
        (fun p => (0 : Nat) < p.1)).map (fun p => p.2) = [1, 2] ∧
    (PTree.node (0 : Nat) [PTree.node 1 [PTree.node 2 []]]).children.map PTree.val
      = [1] ∧
    ((1 : Nat) :: []) ≠ [1, 2] ∧
    buildFromItems [((0 : Nat), (0 : Nat)), (2, 1), (0, 2), (2, 3)] =
      [PTree.node 0 [PTree.node 1 []], PTree.node 2 [PTree.node 3 []]] ∧
    childPairsF (buildFromItems (tagF 0 [((0 : Nat), (0 : Nat)), (2, 1), (0, 2), (2, 3)])) =
      [((0, 0), (1, 1)), ((2, 2), (3, 3))] ∧
    ((0 : Nat), (0 : Nat)) ≠ ((2 : Nat), (2 : Nat)) := by
  refine ⟨rfl, rfl, rfl, by decide, rfl, ?_, by decide⟩
  rw [show buildFromItems (tagF 0 [((0 : Nat), (0 : Nat)), (2, 1), (0, 2), (2, 3)]) =
    [PTree.node ((0 : Nat), (0 : Nat)) [PTree.node (1, 1) []],
      PTree.node (2, 2) [PTree.node (3, 3) []]] from rfl]
  simp [childPairsF, PTree.val]

/-- C6 (amended): the decoded indentation trees (scope and symbols) are the
depth-stack forest of the block's qualifying `(depth, payload)` lines, and
that forest satisfies the corrected positional invariant.  Decorating each
qualifying line with its position (`tagF 0`): erasing the decoration gives
back the decoders' forest, the preorder traversal lists every qualifying
line exactly once in source order, a node is a child of line `i` exactly
when `i` is the nearest preceding qualifying line of strictly smaller
depth (so a node's children are a subset of — not all of — the subsequent
strictly deeper lines up to the next line of depth ≤ its own), a node is a
root exactly when no preceding qualifying line is strictly shallower, and
two equal-depth lines with every intervening qualifying line strictly
deeper (in particular, no intervening shallower-or-equal line) are
siblings: both roots or children of one common parent. -/
theorem C6_tree_invariant :
    (∀ (content : List String) (as : List ScopeAssertion) (tree : List ScopeNode),
        decodeScope content = Except.ok (Expectation.scope as tree) →
        tree = buildFromItems (scopeItemsOf content)) ∧
    (∀ content : List String,
        decodeSymbols content = Expectation.symbols (buildFromItems (symItemsOf content))) ∧
    (∀ (α : Type) (items : List (Nat × α)),
        mapF (fun p => p.2) (buildFromItems (tagF 0 items)) = buildFromItems items ∧
        preF (buildFromItems (tagF 0 items)) = (tagF 0 items).map (fun p => p.2)) ∧
    (∀ (α : Type) (items : List (Nat × α)) (i : Nat) (x : α) (j : Nat) (y : α),
        (((i, x), (j, y)) ∈ childPairsF (buildFromItems (tagF 0 items)) ↔
          isChildSpec (tagF 0 items) i x j y)) ∧
    (∀ (α : Type) (items : List (Nat × α)) (i : Nat) (x : α),
        ((i, x) ∈ (buildFromItems (tagF 0 items)).map PTree.val ↔
          isRootSpec (tagF 0 items) i x)) ∧
    (∀ (α : Type) (items : List (Nat × α)) (di dj i j : Nat) (x y : α),
        (di, i, x) ∈ tagF 0 items → (dj, j, y) ∈ tagF 0 items → i < j → di = dj →
        (∀ e ∈ tagF 0 items, i < e.2.1 → e.2.1 < j → di < e.1) →
        (((i, x) ∈ (buildFromItems (tagF 0 items)).map PTree.val ∧
            (j, y) ∈ (buildFromItems (tagF 0 items)).map PTree.val) ∨
          ∃ p, (p, (i, x)) ∈ childPairsF (buildFromItems (tagF 0 items)) ∧
            (p, (j, y)) ∈ childPairsF (buildFromItems (tagF 0 items)))) := by
  refine ⟨decodeScope_tree, decodeSymbols_tree, ?_, ?_, ?_, ?_⟩
  · intro α items
    refine ⟨buildFromItems_erase items, ?_⟩
    rw [buildFromItems_eq_buildRec]
    exact preF_buildRec (tagF 0 items).length (tagF 0 items) (le_refl _)
  · intro α items i x j y
    rw [buildFromItems_eq_buildRec]
    exact buildRec_children items.length items (le_refl _) 0 i x j y
  · intro α items i x
    rw [buildFromItems_eq_buildRec]
    exact buildRec_roots items.length items (le_refl _) 0 i x
  · intro α items di dj i j x y him hjm hij hdep hbetween
    rw [buildFromItems_eq_buildRec]
    exact buildRec_sibling items 0 di dj i j x y him hjm hij hdep hbetween

/-- Witness for the hypothesis-bearing conjuncts of `C6_tree_invariant`:
the sibling clause applied to two equal-depth root lines, with every
hypothesis discharged at the concrete input. -/
theorem C6_tree_invariant_witness :
    (((0 : Nat), (0 : Nat)) ∈
        (buildFromItems (tagF 0 [((0 : Nat), (0 : Nat)), (0, 1)])).map PTree.val ∧
      ((1 : Nat), (1 : Nat)) ∈
        (buildFromItems (tagF 0 [((0 : Nat), (0 : Nat)), (0, 1)])).map PTree.val) ∨
    ∃ p, (p, ((0 : Nat), (0 : Nat))) ∈
        childPairsF (buildFromItems (tagF 0 [((0 : Nat), (0 : Nat)), (0, 1)])) ∧
      (p, ((1 : Nat), (1 : Nat))) ∈
        childPairsF (buildFromItems (tagF 0 [((0 : Nat), (0 : Nat)), (0, 1)])) :=
  C6_tree_invariant.2.2.2.2.2 Nat [((0 : Nat), (0 : Nat)), (0, 1)] 0 0 0 1 0 1
    (by decide) (by decide) (by decide) (by decide) (by decide)

end OrgFix

